import Mathlib

/-!
Verification of the provenance index of `cameloff` (`db/db.go`).

Keys and values of the underlying store are Go byte strings; we model them
as lists of characters (`Bytes`).  The ordered key-value store (leveldb) is
an external collaborator of the repository, so it is modelled from the
spec: a flat mapping from byte-string key to byte-string value supporting
get, put, atomic batched writes, existence checks, and range iteration
over lexicographically ordered keys.  We represent it as an association
list kept strictly sorted by the lexicographic key order, so that range
scans enumerate entries in key order exactly as a leveldb iterator does.

All index logic (`pack`/`unpack`, `Place`, `PlaceMIME`, `Last`, `Missing`,
`List`, `ListMIME`, `Parents`, `StreamAllParentPaths`, `Stats`) is
translated directly from `db/db.go`.
-/

namespace Cameloff

/-- Model of a Go byte string (keys, values, refs, locations, tags). -/
abbrev Bytes := List Char

/-- Modelled from the spec: the store orders keys lexicographically by
byte.  `lexLt a b` is the strict bytewise lexicographic order. -/
def lexLt : Bytes → Bytes → Bool
  | _, [] => false
  | [], _ :: _ => true
  | a :: as, b :: bs => if a < b then true else if a = b then lexLt as bs else false

theorem lexLt_nil_right (a : Bytes) : lexLt a [] = false := by
  cases a <;> rfl

theorem lexLt_nil_left_cons (b : Char) (bs : Bytes) : lexLt [] (b :: bs) = true := rfl

theorem lexLt_cons_iff {a b : Char} {as bs : Bytes} :
    lexLt (a :: as) (b :: bs) = true ↔ (a < b ∨ (a = b ∧ lexLt as bs = true)) := by
  simp only [lexLt]
  by_cases h1 : a < b
  · simp [h1]
  · by_cases h2 : a = b
    · simp [h1, h2]
    · simp [h1, h2]

theorem lexLt_cons_false_iff {a b : Char} {as bs : Bytes} :
    lexLt (a :: as) (b :: bs) = false ↔ (b < a ∨ (a = b ∧ lexLt as bs = false)) := by
  rw [← Bool.not_eq_true, lexLt_cons_iff]
  constructor
  · intro h
    rcases lt_trichotomy a b with hlt | heq | hgt
    · exact absurd (Or.inl hlt) h
    · refine Or.inr ⟨heq, ?_⟩
      cases ht : lexLt as bs with
      | false => rfl
      | true => exact absurd (Or.inr ⟨heq, ht⟩) h
    · exact Or.inl hgt
  · intro h
    rcases h with hgt | ⟨heq, hf⟩
    · intro hc
      rcases hc with hlt | ⟨heq, _⟩
      · exact absurd (lt_trans hlt hgt) (lt_irrefl a)
      · exact absurd (heq ▸ hgt) (lt_irrefl a)
    · intro hc
      rcases hc with hlt | ⟨_, ht⟩
      · exact absurd (heq ▸ hlt) (lt_irrefl a)
      · rw [ht] at hf
        exact Bool.noConfusion hf

theorem lexLt_irrefl (a : Bytes) : lexLt a a = false := by
  induction a with
  | nil => rfl
  | cons c cs ih => rw [lexLt_cons_false_iff]; exact Or.inr ⟨rfl, ih⟩

theorem lexLt_trans : ∀ {a b c : Bytes},
    lexLt a b = true → lexLt b c = true → lexLt a c = true := by
  intro a
  induction a with
  | nil =>
    intro b c h1 h2
    cases b with
    | nil => rw [lexLt_nil_right] at h1; exact absurd h1 (by simp)
    | cons b0 bs =>
      cases c with
      | nil => rw [lexLt_nil_right] at h2; exact absurd h2 (by simp)
      | cons c0 cs => exact lexLt_nil_left_cons c0 cs
  | cons a0 as ih =>
    intro b c h1 h2
    cases b with
    | nil => rw [lexLt_nil_right] at h1; exact absurd h1 (by simp)
    | cons b0 bs =>
      cases c with
      | nil => rw [lexLt_nil_right] at h2; exact absurd h2 (by simp)
      | cons c0 cs =>
        rw [lexLt_cons_iff] at h1 h2 ⊢
        rcases h1 with hlt1 | ⟨heq1, ht1⟩
        · rcases h2 with hlt2 | ⟨heq2, _⟩
          · exact Or.inl (lt_trans hlt1 hlt2)
          · exact Or.inl (heq2 ▸ hlt1)
        · rcases h2 with hlt2 | ⟨heq2, ht2⟩
          · exact Or.inl (heq1 ▸ hlt2)
          · exact Or.inr ⟨heq1.trans heq2, ih ht1 ht2⟩

theorem lexLt_connex : ∀ {a b : Bytes},
    lexLt a b = false → lexLt b a = false → a = b := by
  intro a
  induction a with
  | nil =>
    intro b h1 _
    cases b with
    | nil => rfl
    | cons b0 bs => exact absurd (lexLt_nil_left_cons b0 bs) (by simp [h1])
  | cons a0 as ih =>
    intro b h1 h2
    cases b with
    | nil => exact absurd (lexLt_nil_left_cons a0 as) (by simp [h2])
    | cons b0 bs =>
      rw [lexLt_cons_false_iff] at h1 h2
      rcases h1 with hgt1 | ⟨heq1, hf1⟩
      · rcases h2 with hgt2 | ⟨heq2, _⟩
        · exact absurd (lt_trans hgt1 hgt2) (lt_irrefl b0)
        · exact absurd (heq2 ▸ hgt1) (lt_irrefl a0)
      · rcases h2 with hgt2 | ⟨_, hf2⟩
        · exact absurd (heq1 ▸ hgt2) (lt_irrefl a0)
        · rw [heq1, ih hf1 hf2]

theorem lexLt_asymm {a b : Bytes} (h : lexLt a b = true) : lexLt b a = false := by
  cases hba : lexLt b a with
  | false => rfl
  | true =>
    have := lexLt_trans h hba
    rw [lexLt_irrefl] at this
    exact absurd this (by simp)

theorem lexLt_of_ne_of_not_lt {a b : Bytes} (h1 : lexLt a b = false) (h2 : a ≠ b) :
    lexLt b a = true := by
  cases hba : lexLt b a with
  | true => rfl
  | false => exact absurd (lexLt_connex h1 hba) h2

theorem lexLt_append_left (p : Bytes) (a b : Bytes) :
    lexLt (p ++ a) (p ++ b) = lexLt a b := by
  induction p with
  | nil => rfl
  | cons c cs ih =>
    show lexLt (c :: (cs ++ a)) (c :: (cs ++ b)) = lexLt a b
    cases hab : lexLt a b with
    | true =>
      rw [lexLt_cons_iff]
      exact Or.inr ⟨rfl, by rw [ih, hab]⟩
    | false =>
      rw [lexLt_cons_false_iff]
      exact Or.inr ⟨rfl, by rw [ih, hab]⟩

/-- No character is below the low sentinel byte `0x00`. -/
theorem not_lt_nul (c : Char) : ¬ c < '\x00' := by
  intro h
  have h2 : c.val < ('\x00').val := h
  have h3 : c.val.toNat < 0 := h2
  exact absurd h3 (Nat.not_lt_zero _)

/-! ### The ordered key-value store

Modelled from the spec: an ordered persistent key-value store with get,
put, existence check, deletion, atomic batches, and range iteration over
lexicographically ordered keys.  Represented as an association list; all
stores reachable from the empty store are strictly sorted by key. -/

/-- Store contents: key/value entries, iterated in list order. -/
abbrev Store := List (Bytes × Bytes)

/-- Point read of a key (leveldb `Get`); `none` models `ErrNotFound`. -/
def dbGet : Store → Bytes → Option Bytes
  | [], _ => none
  | e :: t, k => if e.1 = k then some e.2 else dbGet t k

/-- Existence check for a key (leveldb `Has`). -/
def dbHas (st : Store) (k : Bytes) : Bool := (dbGet st k).isSome

/-- Insert or overwrite a key (leveldb `Put`), preserving sorted order. -/
def dbPut : Store → Bytes → Bytes → Store
  | [], k, v => [(k, v)]
  | e :: t, k, v =>
    if lexLt k e.1 then (k, v) :: e :: t
    else if k = e.1 then (k, v) :: t
    else e :: dbPut t k v

/-- Delete a key (leveldb `Delete`). -/
def dbDel : Store → Bytes → Store
  | [], _ => []
  | e :: t, k => if e.1 = k then dbDel t k else e :: dbDel t k

/-- Iterator range test: `lo ≤ k < hi` in lexicographic key order
(leveldb `util.Range` semantics: `Start` inclusive, `Limit` exclusive). -/
def inRange (lo hi k : Bytes) : Bool := !lexLt k lo && lexLt k hi

/-- Range iteration: all entries whose key lies in `[lo, hi)`, in store
(key) order. -/
def dbScan (st : Store) (lo hi : Bytes) : Store :=
  st.filter (fun e => inRange lo hi e.1)

/-- Well-formedness of a store: entries strictly sorted by key. -/
def Sorted (st : Store) : Prop := st.Pairwise (fun e f => lexLt e.1 f.1 = true)

/-- Keys of a store, in store order. -/
def keysOf (st : Store) : List Bytes := st.map (fun e => e.1)

theorem Sorted.nodup_keys {st : Store} (h : Sorted st) : (keysOf st).Nodup := by
  unfold keysOf List.Nodup
  rw [List.pairwise_map]
  refine h.imp ?_
  intro e f hef heq
  rw [heq, lexLt_irrefl] at hef
  exact Bool.noConfusion hef

theorem dbGet_cons (e : Bytes × Bytes) (t : Store) (k : Bytes) :
    dbGet (e :: t) k = if e.1 = k then some e.2 else dbGet t k := rfl

theorem dbPut_cons_lt {e : Bytes × Bytes} {t : Store} {k : Bytes} (v : Bytes)
    (h1 : lexLt k e.1 = true) : dbPut (e :: t) k v = (k, v) :: e :: t := by
  simp [dbPut, h1]

theorem dbPut_cons_eq {e : Bytes × Bytes} {t : Store} {k : Bytes} (v : Bytes)
    (h2 : k = e.1) : dbPut (e :: t) k v = (k, v) :: t := by
  subst h2
  simp [dbPut, lexLt_irrefl]

theorem dbPut_cons_gt {e : Bytes × Bytes} {t : Store} {k : Bytes} (v : Bytes)
    (h1 : lexLt k e.1 = false) (h2 : k ≠ e.1) :
    dbPut (e :: t) k v = e :: dbPut t k v := by
  simp [dbPut, h1, h2]

theorem dbDel_cons_eq {e : Bytes × Bytes} {t : Store} {k : Bytes}
    (h : e.1 = k) : dbDel (e :: t) k = dbDel t k := by
  simp [dbDel, h]

theorem dbDel_cons_ne {e : Bytes × Bytes} {t : Store} {k : Bytes}
    (h : e.1 ≠ k) : dbDel (e :: t) k = e :: dbDel t k := by
  simp [dbDel, h]

theorem dbGet_put_self (st : Store) (k v : Bytes) : dbGet (dbPut st k v) k = some v := by
  induction st with
  | nil => simp [dbPut, dbGet]
  | cons e t ih =>
    rcases Bool.eq_false_or_eq_true (lexLt k e.1) with h1 | h1
    · rw [dbPut_cons_lt v h1, dbGet_cons]
      simp
    · by_cases h2 : k = e.1
      · rw [dbPut_cons_eq v h2, dbGet_cons]
        simp
      · rw [dbPut_cons_gt v h1 h2, dbGet_cons, if_neg (fun h => h2 h.symm), ih]

theorem dbGet_put_ne (st : Store) (k v k' : Bytes) (h : k' ≠ k) :
    dbGet (dbPut st k v) k' = dbGet st k' := by
  induction st with
  | nil => simp [dbPut, dbGet, Ne.symm h]
  | cons e t ih =>
    rcases Bool.eq_false_or_eq_true (lexLt k e.1) with h1 | h1
    · rw [dbPut_cons_lt v h1, dbGet_cons]
      simp [Ne.symm h]
    · by_cases h2 : k = e.1
      · subst h2
        rw [dbPut_cons_eq v rfl, dbGet_cons, dbGet_cons]
        simp [Ne.symm h]
      · rw [dbPut_cons_gt v h1 h2, dbGet_cons, dbGet_cons, ih]

theorem dbGet_del_self (st : Store) (k : Bytes) : dbGet (dbDel st k) k = none := by
  induction st with
  | nil => rfl
  | cons e t ih =>
    by_cases h : e.1 = k
    · rw [dbDel_cons_eq h, ih]
    · rw [dbDel_cons_ne h, dbGet_cons, if_neg h, ih]

theorem dbGet_del_ne (st : Store) (k k' : Bytes) (h : k' ≠ k) :
    dbGet (dbDel st k) k' = dbGet st k' := by
  induction st with
  | nil => rfl
  | cons e t ih =>
    by_cases h1 : e.1 = k
    · rw [dbDel_cons_eq h1, ih, dbGet_cons, if_neg (h1 ▸ Ne.symm h)]
    · rw [dbDel_cons_ne h1, dbGet_cons, dbGet_cons, ih]

theorem mem_dbPut {st : Store} {k v : Bytes} {e : Bytes × Bytes}
    (h : e ∈ dbPut st k v) : e = (k, v) ∨ e ∈ st := by
  induction st with
  | nil =>
    simp only [dbPut] at h
    exact Or.inl (List.mem_singleton.mp h)
  | cons f t ih =>
    rcases Bool.eq_false_or_eq_true (lexLt k f.1) with h1 | h1
    · rw [dbPut_cons_lt v h1] at h
      rcases List.mem_cons.mp h with h | h
      · exact Or.inl h
      · exact Or.inr h
    · by_cases h2 : k = f.1
      · rw [dbPut_cons_eq v h2] at h
        rcases List.mem_cons.mp h with h | h
        · exact Or.inl h
        · exact Or.inr (List.mem_cons_of_mem _ h)
      · rw [dbPut_cons_gt v h1 h2] at h
        rcases List.mem_cons.mp h with h | h
        · exact Or.inr (List.mem_cons.mpr (Or.inl h))
        · rcases ih h with h | h
          · exact Or.inl h
          · exact Or.inr (List.mem_cons_of_mem _ h)

theorem mem_of_mem_dbDel {st : Store} {k : Bytes} {e : Bytes × Bytes}
    (h : e ∈ dbDel st k) : e ∈ st := by
  induction st with
  | nil => exact absurd h (List.not_mem_nil e)
  | cons f t ih =>
    by_cases h1 : f.1 = k
    · rw [dbDel_cons_eq h1] at h
      exact List.mem_cons_of_mem _ (ih h)
    · rw [dbDel_cons_ne h1] at h
      rcases List.mem_cons.mp h with h | h
      · exact List.mem_cons.mpr (Or.inl h)
      · exact List.mem_cons_of_mem _ (ih h)

theorem dbDel_eq_filter (st : Store) (k : Bytes) :
    dbDel st k = st.filter (fun e => !decide (e.1 = k)) := by
  induction st with
  | nil => rfl
  | cons e t ih =>
    by_cases h : e.1 = k
    · rw [dbDel_cons_eq h]
      simp [List.filter, h, ih]
    · rw [dbDel_cons_ne h]
      simp [List.filter, h, ih]

theorem Sorted.dbPut {st : Store} (hs : Sorted st) (k v : Bytes) :
    Sorted (dbPut st k v) := by
  induction st with
  | nil =>
    simp only [Cameloff.dbPut]
    exact List.pairwise_singleton _ _
  | cons e t ih =>
    rcases List.pairwise_cons.mp hs with ⟨he, ht⟩
    rcases Bool.eq_false_or_eq_true (lexLt k e.1) with h1 | h1
    · rw [dbPut_cons_lt v h1]
      refine List.pairwise_cons.mpr ⟨?_, hs⟩
      intro f hf
      rcases List.mem_cons.mp hf with h | h
      · rw [h]; exact h1
      · exact lexLt_trans h1 (he f h)
    · by_cases h2 : k = e.1
      · rw [dbPut_cons_eq v h2]
        refine List.pairwise_cons.mpr ⟨?_, ht⟩
        intro f hf
        show lexLt k f.1 = true
        rw [h2]
        exact he f hf
      · rw [dbPut_cons_gt v h1 h2]
        refine List.pairwise_cons.mpr ⟨?_, ih ht⟩
        intro f hf
        rcases mem_dbPut hf with h | h
        · rw [h]
          show lexLt e.1 (k, v).1 = true
          exact lexLt_of_ne_of_not_lt h1 h2
        · exact he f h

theorem Sorted.dbDel {st : Store} (hs : Sorted st) (k : Bytes) :
    Sorted (dbDel st k) := by
  rw [dbDel_eq_filter]
  exact List.Pairwise.filter _ hs

/-! ### Atomic batches (leveldb `Batch`) -/

/-- One operation recorded in a write batch. -/
inductive BatchOp
  | put : Bytes → Bytes → BatchOp
  | del : Bytes → BatchOp
deriving DecidableEq

/-- A write batch: operations replayed in insertion order on commit. -/
abbrev Batch := List BatchOp

/-- Key an operation touches. -/
def opKey : BatchOp → Bytes
  | .put k _ => k
  | .del k => k

/-- Apply one batch operation to the store. -/
def applyOp (st : Store) : BatchOp → Store
  | .put k v => dbPut st k v
  | .del k => dbDel st k

/-- Atomically commit a batch (leveldb `DB.Write`): all operations applied
in order, all-or-nothing. -/
def writeBatch (st : Store) (b : Batch) : Store := b.foldl applyOp st

theorem writeBatch_nil (st : Store) : writeBatch st [] = st := rfl

theorem writeBatch_cons (st : Store) (op : BatchOp) (b : Batch) :
    writeBatch st (op :: b) = writeBatch (applyOp st op) b := rfl

theorem writeBatch_append (st : Store) (b1 b2 : Batch) :
    writeBatch st (b1 ++ b2) = writeBatch (writeBatch st b1) b2 :=
  List.foldl_append applyOp st b1 b2

theorem dbGet_writeBatch_untouched {b : Batch} {k : Bytes}
    (h : ∀ op ∈ b, opKey op ≠ k) (st : Store) :
    dbGet (writeBatch st b) k = dbGet st k := by
  induction b generalizing st with
  | nil => rfl
  | cons op rest ih =>
    rw [writeBatch_cons, ih (fun o ho => h o (List.mem_cons_of_mem _ ho))]
    have hop : opKey op ≠ k := h op (List.mem_cons_self _ _)
    cases op with
    | put k' v => exact dbGet_put_ne st k' v k (fun he => hop he.symm)
    | del k' => exact dbGet_del_ne st k' k (fun he => hop he.symm)

theorem Sorted.applyOp {st : Store} (hs : Sorted st) (op : BatchOp) :
    Sorted (applyOp st op) := by
  cases op with
  | put k v => exact hs.dbPut k v
  | del k => exact hs.dbDel k

theorem Sorted.writeBatch {st : Store} (hs : Sorted st) (b : Batch) :
    Sorted (writeBatch st b) := by
  induction b generalizing st with
  | nil => exact hs
  | cons op rest ih => exact ih (hs.applyOp op)

theorem mem_writeBatch {st : Store} {b : Batch} {e : Bytes × Bytes}
    (h : e ∈ writeBatch st b) : e ∈ st ∨ ∃ v, BatchOp.put e.1 v ∈ b := by
  induction b generalizing st with
  | nil => exact Or.inl h
  | cons op rest ih =>
    rw [writeBatch_cons] at h
    rcases ih h with h | ⟨v, hv⟩
    · cases op with
      | put k v =>
        rcases mem_dbPut h with h | h
        · exact Or.inr ⟨v, by simp [h]⟩
        · exact Or.inl h
      | del k => exact Or.inl (mem_of_mem_dbDel h)
    · exact Or.inr ⟨v, List.mem_cons_of_mem _ hv⟩

/-! ### Key multiplicity -/

/-- Number of entries of the store holding key `k`. -/
def countKey (st : Store) (k : Bytes) : Nat := st.countP (fun e => decide (e.1 = k))

theorem countKey_nil (k : Bytes) : countKey [] k = 0 := rfl

theorem countKey_cons (e : Bytes × Bytes) (t : Store) (k : Bytes) :
    countKey (e :: t) k = countKey t k + if e.1 = k then 1 else 0 := by
  simp [countKey, List.countP_cons]

theorem countKey_eq_zero {st : Store} {k : Bytes} :
    countKey st k = 0 ↔ ∀ e ∈ st, e.1 ≠ k := by
  simp [countKey, List.countP_eq_zero]

theorem dbGet_eq_none_iff (st : Store) (k : Bytes) :
    dbGet st k = none ↔ ∀ e ∈ st, e.1 ≠ k := by
  induction st with
  | nil => simp [dbGet]
  | cons e t ih =>
    rw [dbGet_cons]
    by_cases h : e.1 = k
    · simp [h]
    · simp [h, ih]

theorem dbHas_eq_false_iff (st : Store) (k : Bytes) :
    dbHas st k = false ↔ ∀ e ∈ st, e.1 ≠ k := by
  rw [← dbGet_eq_none_iff]
  unfold dbHas
  cases dbGet st k <;> simp

theorem dbHas_iff (st : Store) (k : Bytes) :
    dbHas st k = true ↔ ∃ e ∈ st, e.1 = k := by
  rw [← Bool.not_eq_false, dbHas_eq_false_iff]
  push_neg
  constructor
  · rintro ⟨e, he, hek⟩
    exact ⟨e, he, hek⟩
  · rintro ⟨e, he, hek⟩
    exact ⟨e, he, hek⟩

theorem countKey_eq_zero_of_not_has {st : Store} {k : Bytes}
    (h : dbHas st k = false) : countKey st k = 0 :=
  countKey_eq_zero.mpr ((dbHas_eq_false_iff st k).mp h)

theorem countKey_eq_one_of_has {st : Store} {k : Bytes} (hs : Sorted st)
    (h : dbHas st k = true) : countKey st k = 1 := by
  induction st with
  | nil => exact Bool.noConfusion h
  | cons e t ih =>
    rcases List.pairwise_cons.mp hs with ⟨he, ht⟩
    rw [countKey_cons]
    by_cases h1 : e.1 = k
    · rw [if_pos h1]
      have hz : countKey t k = 0 := by
        apply countKey_eq_zero.mpr
        intro f hf hfk
        have := he f hf
        rw [h1, hfk, lexLt_irrefl] at this
        exact Bool.noConfusion this
      rw [hz]
    · rw [if_neg h1]
      have : dbHas t k = true := by
        have hg : dbGet (e :: t) k = dbGet t k := by rw [dbGet_cons, if_neg h1]
        unfold dbHas at h ⊢
        rw [← hg]
        exact h
      rw [ih ht this]

theorem countKey_put_self {st : Store} (hs : Sorted st) (k v : Bytes) :
    countKey (dbPut st k v) k = 1 := by
  apply countKey_eq_one_of_has (hs.dbPut k v)
  unfold dbHas
  rw [dbGet_put_self]
  rfl

theorem countKey_put_ne (st : Store) (k v k' : Bytes) (h : k' ≠ k) :
    countKey (dbPut st k v) k' = countKey st k' := by
  induction st with
  | nil => simp [dbPut, countKey_cons, countKey_nil, Ne.symm h]
  | cons e t ih =>
    rcases Bool.eq_false_or_eq_true (lexLt k e.1) with h1 | h1
    · rw [dbPut_cons_lt v h1, countKey_cons, countKey_cons]
      simp [Ne.symm h]
    · by_cases h2 : k = e.1
      · subst h2
        rw [dbPut_cons_eq v rfl, countKey_cons, countKey_cons]
      · rw [dbPut_cons_gt v h1 h2, countKey_cons, countKey_cons, ih]

theorem countKey_del_self (st : Store) (k : Bytes) : countKey (dbDel st k) k = 0 := by
  apply countKey_eq_zero.mpr
  intro e he hek
  have h := dbGet_del_self st k
  rw [dbGet_eq_none_iff] at h
  exact h e he hek

theorem countKey_del_ne (st : Store) (k k' : Bytes) (h : k' ≠ k) :
    countKey (dbDel st k) k' = countKey st k' := by
  induction st with
  | nil => rfl
  | cons e t ih =>
    by_cases h1 : e.1 = k
    · rw [dbDel_cons_eq h1, countKey_cons, if_neg (h1 ▸ fun he => h he.symm), ih]
      simp
    · rw [dbDel_cons_ne h1, countKey_cons, countKey_cons, ih]

theorem countKey_writeBatch_untouched {b : Batch} {k : Bytes}
    (h : ∀ op ∈ b, opKey op ≠ k) (st : Store) :
    countKey (writeBatch st b) k = countKey st k := by
  induction b generalizing st with
  | nil => rfl
  | cons op rest ih =>
    rw [writeBatch_cons, ih (fun o ho => h o (List.mem_cons_of_mem _ ho))]
    have hop : opKey op ≠ k := h op (List.mem_cons_self _ _)
    cases op with
    | put k' v => exact countKey_put_ne st k' v k (fun he => hop he.symm)
    | del k' => exact countKey_del_ne st k' k (fun he => hop he.symm)

/-! ### Key encoding (`pack` / `unpack` from `db.go`) -/

/-- Fields of a key after the prefix tag: each field is written as a `'|'`
separator byte followed by the field bytes (the loop body of Go `pack`). -/
def packFields : List Bytes → Bytes
  | [] => []
  | f :: fs => '|' :: (f ++ packFields fs)

/-- Key construction (Go `pack`): the prefix tag, then the fields each
preceded by `'|'`. -/
def pack (tag : Bytes) (fields : List Bytes) : Bytes := tag ++ packFields fields

/-- Model of Go `strings.Split(s, "|")`, used by `unpack`. -/
def splitPipe : Bytes → List Bytes
  | [] => [[]]
  | c :: cs =>
    if c = '|' then [] :: splitPipe cs
    else (c :: (splitPipe cs).headD []) :: (splitPipe cs).tail

/-- Key decomposition (Go `unpack`). -/
def unpack (k : Bytes) : List Bytes := splitPipe k

/-- Prefixes used in leveldb (Go constants in `db.go`). -/
def found : Bytes := "found".toList

def missing : Bytes := "missing".toList

def parent : Bytes := "parent".toList

def last : Bytes := "last".toList

def camliType : Bytes := "type".toList

def mimeType : Bytes := "mime".toList

/-- Iterator bounds (Go constants `start = "\x00"`, `limit = "\xff"`). -/
def start : Bytes := ['\x00']

def limit : Bytes := ['\xff']

theorem found_def : found = ['f', 'o', 'u', 'n', 'd'] := rfl

theorem missing_def : missing = ['m', 'i', 's', 's', 'i', 'n', 'g'] := rfl

theorem parent_def : parent = ['p', 'a', 'r', 'e', 'n', 't'] := rfl

theorem last_def : last = ['l', 'a', 's', 't'] := rfl

theorem camliType_def : camliType = ['t', 'y', 'p', 'e'] := rfl

theorem mimeType_def : mimeType = ['m', 'i', 'm', 'e'] := rfl

/-- Well-formed field bytes (spec §6: fields must not contain the `|`
byte; the sentinel bytes `0x00`/`0xff` bracket all keys sharing a prefix,
so fields also avoid the high sentinel, and are nonempty). -/
def goodRef (s : Bytes) : Bool :=
  !s.isEmpty && s.all (fun c => !decide (c = '|') && decide (c < '\xff'))

theorem goodRef_iff {s : Bytes} :
    goodRef s = true ↔ s ≠ [] ∧ ∀ c ∈ s, c ≠ '|' ∧ c < '\xff' := by
  simp [goodRef, List.all_eq_true, List.isEmpty_iff, and_assoc]

theorem goodRef_ne_nil {s : Bytes} (h : goodRef s = true) : s ≠ [] :=
  (goodRef_iff.mp h).1

theorem goodRef_pipeFree {s : Bytes} (h : goodRef s = true) : ∀ c ∈ s, c ≠ '|' :=
  fun c hc => ((goodRef_iff.mp h).2 c hc).1

theorem goodRef_lt_ff {s : Bytes} (h : goodRef s = true) : ∀ c ∈ s, c < '\xff' :=
  fun c hc => ((goodRef_iff.mp h).2 c hc).2

theorem pipe_split_inj {a u b v : Bytes} (ha : ∀ c ∈ a, c ≠ '|')
    (hb : ∀ c ∈ b, c ≠ '|') (h : a ++ '|' :: u = b ++ '|' :: v) :
    a = b ∧ u = v := by
  induction a generalizing b with
  | nil =>
    cases b with
    | nil =>
      simp only [List.nil_append] at h
      exact ⟨rfl, (List.cons.injEq _ _ _ _).mp h |>.2⟩
    | cons d bs =>
      simp only [List.nil_append, List.cons_append] at h
      have hd := ((List.cons.injEq _ _ _ _).mp h).1
      exact absurd hd.symm (hb d (List.mem_cons_self _ _))
  | cons c as ih =>
    cases b with
    | nil =>
      simp only [List.cons_append, List.nil_append] at h
      have hc := ((List.cons.injEq _ _ _ _).mp h).1
      exact absurd hc (ha c (List.mem_cons_self _ _))
    | cons d bs =>
      simp only [List.cons_append] at h
      have h1 := ((List.cons.injEq _ _ _ _).mp h).1
      have h2 := ((List.cons.injEq _ _ _ _).mp h).2
      rcases ih (fun x hx => ha x (List.mem_cons_of_mem _ hx))
        (fun x hx => hb x (List.mem_cons_of_mem _ hx)) h2 with ⟨hab, huv⟩
      exact ⟨by rw [h1, hab], huv⟩

theorem packed_ne_pipeFree {s T u : Bytes} (hs : ∀ c ∈ s, c ≠ '|') :
    s ≠ T ++ '|' :: u := by
  intro h
  have : '|' ∈ s := by
    rw [h]
    exact List.mem_append_right _ (List.mem_cons_self _ _)
  exact hs '|' this rfl

theorem splitPipe_ne_nil (s : Bytes) : splitPipe s ≠ [] := by
  induction s with
  | nil => simp [splitPipe]
  | cons c cs ih =>
    by_cases h : c = '|'
    · simp [splitPipe, h]
    · simp [splitPipe, h]

theorem splitPipe_append_pipe {a : Bytes} (ha : ∀ c ∈ a, c ≠ '|') (r : Bytes) :
    splitPipe (a ++ '|' :: r) = a :: splitPipe r := by
  induction a with
  | nil => simp [splitPipe]
  | cons c as ih =>
    have hc : c ≠ '|' := ha c (List.mem_cons_self _ _)
    have ih2 := ih (fun x hx => ha x (List.mem_cons_of_mem _ hx))
    rw [show (c :: as) ++ '|' :: r = c :: (as ++ '|' :: r) from rfl]
    simp only [splitPipe, if_neg hc, ih2]
    rfl

theorem splitPipe_pipeFree {a : Bytes} (ha : ∀ c ∈ a, c ≠ '|') :
    splitPipe a = [a] := by
  induction a with
  | nil => rfl
  | cons c as ih =>
    have hc : c ≠ '|' := ha c (List.mem_cons_self _ _)
    have ih2 := ih (fun x hx => ha x (List.mem_cons_of_mem _ hx))
    simp only [splitPipe, if_neg hc, ih2]
    rfl

theorem unpack_pack2 {tag x r : Bytes} (htag : ∀ c ∈ tag, c ≠ '|')
    (hx : ∀ c ∈ x, c ≠ '|') (hr : ∀ c ∈ r, c ≠ '|') :
    unpack (pack tag [x, r]) = [tag, x, r] := by
  unfold unpack pack
  simp only [packFields, List.append_nil]
  rw [splitPipe_append_pipe htag, splitPipe_append_pipe hx, splitPipe_pipeFree hr]

theorem unpack_pack1 {tag r : Bytes} (htag : ∀ c ∈ tag, c ≠ '|')
    (hr : ∀ c ∈ r, c ≠ '|') :
    unpack (pack tag [r]) = [tag, r] := by
  unfold unpack pack
  simp only [packFields, List.append_nil]
  rw [splitPipe_append_pipe htag, splitPipe_pipeFree hr]

theorem unpack_pack0 {tag : Bytes} (htag : ∀ c ∈ tag, c ≠ '|') :
    unpack (pack tag []) = [tag] := by
  unfold unpack pack
  simp only [packFields, List.append_nil]
  exact splitPipe_pipeFree htag

/-! ### Key shapes written by the index (§3 data model) -/

/-- Every key the index writes has one of the six shapes of the data
model, with well-formed fields. -/
inductive GoodKey : Bytes → Prop
  | lastK : GoodKey (pack last [])
  | foundK (r : Bytes) : goodRef r = true → GoodKey (pack found [r])
  | typeK (c r : Bytes) : goodRef c = true → goodRef r = true →
      GoodKey (pack camliType [c, r])
  | mimeK (m r : Bytes) : goodRef m = true → goodRef r = true →
      GoodKey (pack mimeType [m, r])
  | parentK (d r : Bytes) : goodRef d = true → goodRef r = true →
      GoodKey (pack parent [d, r])
  | missingK (d r : Bytes) : goodRef d = true → goodRef r = true →
      GoodKey (pack missing [d, r])

/-- All keys of the store have a written shape. -/
def GoodKeys (st : Store) : Prop := ∀ e ∈ st, GoodKey e.1

/-- Well-formed store: sorted, and every key has a written shape.  Every
store reachable from the empty store by placements satisfies this. -/
def DBwf (st : Store) : Prop := Sorted st ∧ GoodKeys st

theorem DBwf_nil : DBwf [] :=
  ⟨List.Pairwise.nil, fun e he => absurd he (List.not_mem_nil e)⟩

/-! ### Range characterization for sentinel-bracketed prefix scans -/

theorem inRange_sentinel (p k : Bytes) :
    inRange (p ++ ['\x00']) (p ++ ['\xff']) k = true ↔
      ∃ c t, k = p ++ c :: t ∧ c < '\xff' := by
  induction p generalizing k with
  | nil =>
    cases k with
    | nil =>
      constructor
      · intro h
        simp [inRange, lexLt] at h
      · rintro ⟨c, t, h, _⟩
        exact absurd h (by simp)
    | cons c t =>
      constructor
      · intro h
        simp only [List.nil_append, inRange, Bool.and_eq_true] at h
        refine ⟨c, t, rfl, ?_⟩
        rcases lexLt_cons_iff.mp h.2 with hlt | ⟨heq, hf⟩
        · exact hlt
        · rw [lexLt_nil_right] at hf
          exact Bool.noConfusion hf
      · rintro ⟨c', t', h, hc⟩
        simp only [List.nil_append] at h
        have hc' := ((List.cons.injEq _ _ _ _).mp h).1
        have ht' := ((List.cons.injEq _ _ _ _).mp h).2
        subst hc'
        subst ht'
        simp only [List.nil_append, inRange, Bool.and_eq_true]
        constructor
        · rw [Bool.not_eq_true', lexLt_cons_false_iff]
          rcases lt_trichotomy c '\x00' with h0 | h0 | h0
          · exact absurd h0 (not_lt_nul c)
          · exact Or.inr ⟨h0, lexLt_nil_right t⟩
          · exact Or.inl h0
        · rw [lexLt_cons_iff]
          exact Or.inl hc
  | cons a p' ih =>
    cases k with
    | nil =>
      constructor
      · intro h
        simp only [List.cons_append, inRange, Bool.and_eq_true] at h
        have := h.1
        rw [Bool.not_eq_true', lexLt_nil_left_cons] at this
        exact Bool.noConfusion this
      · rintro ⟨c, t, h, _⟩
        exact absurd h (by simp)
    | cons b k' =>
      constructor
      · intro h
        simp only [List.cons_append, inRange, Bool.and_eq_true] at h
        rcases h with ⟨h1, h2⟩
        rw [Bool.not_eq_true', lexLt_cons_false_iff] at h1
        rcases h1 with hgt | ⟨heq, hf⟩
        · rcases lexLt_cons_iff.mp h2 with hlt | ⟨heq, _⟩
          · exact absurd (lt_trans hgt hlt) (lt_irrefl a)
          · exact absurd (heq ▸ hgt) (lt_irrefl b)
        · rcases lexLt_cons_iff.mp h2 with hlt | ⟨_, ht⟩
          · exact absurd (heq ▸ hlt) (lt_irrefl b)
          · have hk' : inRange (p' ++ ['\x00']) (p' ++ ['\xff']) k' = true := by
              simp only [inRange, Bool.and_eq_true]
              exact ⟨by rw [Bool.not_eq_true', hf], ht⟩
            rcases (ih k').mp hk' with ⟨c, t, hkt, hc⟩
            refine ⟨c, t, ?_, hc⟩
            rw [heq, hkt]
            rfl
      · rintro ⟨c, t, h, hc⟩
        simp only [List.cons_append] at h
        have hb := ((List.cons.injEq _ _ _ _).mp h).1
        have hk' := ((List.cons.injEq _ _ _ _).mp h).2
        have hr : inRange (p' ++ ['\x00']) (p' ++ ['\xff']) k' = true :=
          (ih k').mpr ⟨c, t, hk', hc⟩
        simp only [inRange, Bool.and_eq_true] at hr
        simp only [List.cons_append, inRange, Bool.and_eq_true]
        constructor
        · rw [Bool.not_eq_true', lexLt_cons_false_iff]
          exact Or.inr ⟨hb, by rw [Bool.not_eq_true'] at hr; exact hr.1⟩
        · rw [lexLt_cons_iff]
          exact Or.inr ⟨hb, hr.2⟩

theorem pack0_eq (T : Bytes) : pack T [] = T := by
  simp [pack, packFields]

theorem pack1_eq (T a : Bytes) : pack T [a] = T ++ '|' :: a := by
  simp [pack, packFields]

theorem pack2_eq (T a b : Bytes) : pack T [a, b] = T ++ '|' :: (a ++ '|' :: b) := by
  simp [pack, packFields]

theorem found_pipeFree : ∀ c ∈ found, c ≠ '|' := by decide

theorem missing_pipeFree : ∀ c ∈ missing, c ≠ '|' := by decide

theorem parent_pipeFree : ∀ c ∈ parent, c ≠ '|' := by decide

theorem last_pipeFree : ∀ c ∈ last, c ≠ '|' := by decide

theorem camliType_pipeFree : ∀ c ∈ camliType, c ≠ '|' := by decide

theorem mimeType_pipeFree : ∀ c ∈ mimeType, c ≠ '|' := by decide

theorem pack2_inj {T T' a a' b b' : Bytes} (hT : ∀ c ∈ T, c ≠ '|')
    (hT' : ∀ c ∈ T', c ≠ '|') (ha : ∀ c ∈ a, c ≠ '|') (ha' : ∀ c ∈ a', c ≠ '|')
    (h : pack T [a, b] = pack T' [a', b']) : T = T' ∧ a = a' ∧ b = b' := by
  rw [pack2_eq, pack2_eq] at h
  rcases pipe_split_inj hT hT' h with ⟨h1, h2⟩
  rcases pipe_split_inj ha ha' h2 with ⟨h3, h4⟩
  exact ⟨h1, h3, h4⟩

theorem pack1_inj {T T' a a' : Bytes} (hT : ∀ c ∈ T, c ≠ '|')
    (hT' : ∀ c ∈ T', c ≠ '|') (h : pack T [a] = pack T' [a']) :
    T = T' ∧ a = a' := by
  rw [pack1_eq, pack1_eq] at h
  exact pipe_split_inj hT hT' h

theorem pack2_ne_pack1 {T T' a b r : Bytes} (hT : ∀ c ∈ T, c ≠ '|')
    (hT' : ∀ c ∈ T', c ≠ '|') (hr : ∀ c ∈ r, c ≠ '|') :
    pack T [a, b] ≠ pack T' [r] := by
  intro h
  rw [pack2_eq, pack1_eq] at h
  rcases pipe_split_inj hT hT' h with ⟨_, h2⟩
  exact packed_ne_pipeFree hr h2.symm

theorem pack_ne_last {T : Bytes} (_hT : ∀ c ∈ T, c ≠ '|') (u : Bytes) :
    T ++ '|' :: u ≠ pack last [] := by
  rw [pack0_eq]
  intro h
  exact packed_ne_pipeFree last_pipeFree h.symm

theorem pack2_start_eq (T x : Bytes) :
    pack T [x, start] = (T ++ '|' :: (x ++ ['|'])) ++ ['\x00'] := by
  rw [pack2_eq, start]
  simp

theorem pack2_limit_eq (T x : Bytes) :
    pack T [x, limit] = (T ++ '|' :: (x ++ ['|'])) ++ ['\xff'] := by
  rw [pack2_eq, limit]
  simp

theorem pack1_start_eq (T : Bytes) : pack T [start] = (T ++ ['|']) ++ ['\x00'] := by
  rw [pack1_eq, start]
  simp

theorem pack1_limit_eq (T : Bytes) : pack T [limit] = (T ++ ['|']) ++ ['\xff'] := by
  rw [pack1_eq, limit]
  simp

theorem inRange_pack2_iff (T x k : Bytes) :
    inRange (pack T [x, start]) (pack T [x, limit]) k = true ↔
      ∃ c t, k = pack T [x, c :: t] ∧ c < '\xff' := by
  rw [pack2_start_eq, pack2_limit_eq, inRange_sentinel]
  constructor
  · rintro ⟨c, t, hk, hc⟩
    refine ⟨c, t, ?_, hc⟩
    rw [hk, pack2_eq]
    simp
  · rintro ⟨c, t, hk, hc⟩
    refine ⟨c, t, ?_, hc⟩
    rw [hk, pack2_eq]
    simp

theorem inRange_pack1_iff (T k : Bytes) :
    inRange (pack T [start]) (pack T [limit]) k = true ↔
      ∃ c t, k = pack T [c :: t] ∧ c < '\xff' := by
  rw [pack1_start_eq, pack1_limit_eq, inRange_sentinel]
  constructor
  · rintro ⟨c, t, hk, hc⟩
    refine ⟨c, t, ?_, hc⟩
    rw [hk, pack1_eq]
    simp
  · rintro ⟨c, t, hk, hc⟩
    refine ⟨c, t, ?_, hc⟩
    rw [hk, pack1_eq]
    simp

/-- Within a well-formed store, the per-dependency missing scan
`missing|x|*` selects exactly the missing records whose dependency field
is `x`. -/
theorem goodKey_missingRange {x : Bytes} (hx : goodRef x = true) {k : Bytes}
    (hk : GoodKey k) :
    inRange (pack missing [x, start]) (pack missing [x, limit]) k = true ↔
      ∃ r, goodRef r = true ∧ k = pack missing [x, r] := by
  constructor
  · intro h
    rcases (inRange_pack2_iff missing x k).mp h with ⟨c, t, hkeq, _⟩
    cases hk with
    | lastK =>
      rw [pack2_eq] at hkeq
      exact absurd hkeq.symm (pack_ne_last missing_pipeFree _)
    | foundK r hr =>
      exact absurd hkeq.symm
        (pack2_ne_pack1 missing_pipeFree found_pipeFree (goodRef_pipeFree hr))
    | typeK c' r hc' hr =>
      rcases pack2_inj camliType_pipeFree missing_pipeFree
        (goodRef_pipeFree hc') (goodRef_pipeFree hx) hkeq with ⟨hTT, _, _⟩
      exact absurd hTT (by decide)
    | mimeK m r hm hr =>
      rcases pack2_inj mimeType_pipeFree missing_pipeFree
        (goodRef_pipeFree hm) (goodRef_pipeFree hx) hkeq with ⟨hTT, _, _⟩
      exact absurd hTT (by decide)
    | parentK d r hd hr =>
      rcases pack2_inj parent_pipeFree missing_pipeFree
        (goodRef_pipeFree hd) (goodRef_pipeFree hx) hkeq with ⟨hTT, _, _⟩
      exact absurd hTT (by decide)
    | missingK d r hd hr =>
      rcases pack2_inj missing_pipeFree missing_pipeFree
        (goodRef_pipeFree hd) (goodRef_pipeFree hx) hkeq with ⟨_, hdx, _⟩
      exact ⟨r, hr, by rw [hdx]⟩
  · rintro ⟨r, hr, hkeq⟩
    cases hrr : r with
    | nil => exact absurd hrr (goodRef_ne_nil hr)
    | cons c t =>
      apply (inRange_pack2_iff missing x k).mpr
      refine ⟨c, t, by rw [hkeq, hrr], ?_⟩
      exact goodRef_lt_ff hr c (by rw [hrr]; exact List.mem_cons_self _ _)

/-- Within a well-formed store, the parent scan `parent|x|*` selects
exactly the dependency edges whose dependency field is `x`. -/
theorem goodKey_parentRange {x : Bytes} (hx : goodRef x = true) {k : Bytes}
    (hk : GoodKey k) :
    inRange (pack parent [x, start]) (pack parent [x, limit]) k = true ↔
      ∃ r, goodRef r = true ∧ k = pack parent [x, r] := by
  constructor
  · intro h
    rcases (inRange_pack2_iff parent x k).mp h with ⟨c, t, hkeq, _⟩
    cases hk with
    | lastK =>
      rw [pack2_eq] at hkeq
      exact absurd hkeq.symm (pack_ne_last parent_pipeFree _)
    | foundK r hr =>
      exact absurd hkeq.symm
        (pack2_ne_pack1 parent_pipeFree found_pipeFree (goodRef_pipeFree hr))
    | typeK c' r hc' hr =>
      rcases pack2_inj camliType_pipeFree parent_pipeFree
        (goodRef_pipeFree hc') (goodRef_pipeFree hx) hkeq with ⟨hTT, _, _⟩
      exact absurd hTT (by decide)
    | mimeK m r hm hr =>
      rcases pack2_inj mimeType_pipeFree parent_pipeFree
        (goodRef_pipeFree hm) (goodRef_pipeFree hx) hkeq with ⟨hTT, _, _⟩
      exact absurd hTT (by decide)
    | parentK d r hd hr =>
      rcases pack2_inj parent_pipeFree parent_pipeFree
        (goodRef_pipeFree hd) (goodRef_pipeFree hx) hkeq with ⟨_, hdx, _⟩
      exact ⟨r, hr, by rw [hdx]⟩
    | missingK d r hd hr =>
      rcases pack2_inj missing_pipeFree parent_pipeFree
        (goodRef_pipeFree hd) (goodRef_pipeFree hx) hkeq with ⟨hTT, _, _⟩
      exact absurd hTT (by decide)
  · rintro ⟨r, hr, hkeq⟩
    cases hrr : r with
    | nil => exact absurd hrr (goodRef_ne_nil hr)
    | cons c t =>
      apply (inRange_pack2_iff parent x k).mpr
      refine ⟨c, t, by rw [hkeq, hrr], ?_⟩
      exact goodRef_lt_ff hr c (by rw [hrr]; exact List.mem_cons_self _ _)

/-- Within a well-formed store, the full missing scan `missing|*` selects
exactly the missing records. -/
theorem goodKey_missingAll {k : Bytes} (hk : GoodKey k) :
    inRange (pack missing [start]) (pack missing [limit]) k = true ↔
      ∃ d r, goodRef d = true ∧ goodRef r = true ∧ k = pack missing [d, r] := by
  constructor
  · intro h
    rcases (inRange_pack1_iff missing k).mp h with ⟨c, t, hkeq, _⟩
    rw [pack1_eq] at hkeq
    cases hk with
    | lastK => exact absurd hkeq (Ne.symm (pack_ne_last missing_pipeFree _))
    | foundK r hr =>
      rw [pack1_eq] at hkeq
      rcases pipe_split_inj found_pipeFree missing_pipeFree hkeq with ⟨hTT, _⟩
      exact absurd hTT (by decide)
    | typeK c' r hc' hr =>
      rw [pack2_eq] at hkeq
      rcases pipe_split_inj camliType_pipeFree missing_pipeFree hkeq with ⟨hTT, _⟩
      exact absurd hTT (by decide)
    | mimeK m r hm hr =>
      rw [pack2_eq] at hkeq
      rcases pipe_split_inj mimeType_pipeFree missing_pipeFree hkeq with ⟨hTT, _⟩
      exact absurd hTT (by decide)
    | parentK d r hd hr =>
      rw [pack2_eq] at hkeq
      rcases pipe_split_inj parent_pipeFree missing_pipeFree hkeq with ⟨hTT, _⟩
      exact absurd hTT (by decide)
    | missingK d r hd hr => exact ⟨d, r, hd, hr, rfl⟩
  · rintro ⟨d, r, hd, hr, hkeq⟩
    cases hdd : d with
    | nil => exact absurd hdd (goodRef_ne_nil hd)
    | cons c t =>
      apply (inRange_pack1_iff missing k).mpr
      refine ⟨c, t ++ '|' :: r, ?_, ?_⟩
      · rw [hkeq, pack2_eq, pack1_eq, hdd]
        simp
      · exact goodRef_lt_ff hd c (by rw [hdd]; exact List.mem_cons_self _ _)

/-! ### Further generic batch lemmas -/

theorem dbHas_writeBatch_mono {b : Batch} {k : Bytes}
    (hdel : ∀ k', BatchOp.del k' ∈ b → k' ≠ k) (st : Store)
    (h : dbHas st k = true) : dbHas (writeBatch st b) k = true := by
  induction b generalizing st with
  | nil => exact h
  | cons op rest ih =>
    rw [writeBatch_cons]
    refine ih (fun k' hk' => hdel k' (List.mem_cons_of_mem _ hk')) _ ?_
    cases op with
    | put k2 v =>
      by_cases h2 : k = k2
      · subst h2
        unfold dbHas applyOp
        rw [dbGet_put_self]
        rfl
      · unfold dbHas applyOp
        rw [dbGet_put_ne st k2 v k h2]
        exact h
    | del k2 =>
      have hne : k ≠ k2 := fun he => hdel k2 (List.mem_cons_self _ _) he.symm
      unfold dbHas applyOp
      rw [dbGet_del_ne st k2 k hne]
      exact h

theorem dbHas_writeBatch_of_put {b : Batch} {k v : Bytes}
    (hput : BatchOp.put k v ∈ b) (hdel : ∀ k', BatchOp.del k' ∈ b → k' ≠ k)
    (st : Store) : dbHas (writeBatch st b) k = true := by
  induction b generalizing st with
  | nil => exact absurd hput (List.not_mem_nil _)
  | cons op rest ih =>
    rcases List.mem_cons.mp hput with hop | hop
    · rw [writeBatch_cons, ← hop]
      apply dbHas_writeBatch_mono (fun k' hk' => hdel k' (List.mem_cons_of_mem _ hk'))
      unfold dbHas applyOp
      rw [dbGet_put_self]
      rfl
    · rw [writeBatch_cons]
      exact ih hop (fun k' hk' => hdel k' (List.mem_cons_of_mem _ hk')) _

theorem dbGet_writeBatch_none {b : Batch} {k : Bytes}
    (hput : ∀ v, BatchOp.put k v ∉ b) (st : Store) (h : dbGet st k = none) :
    dbGet (writeBatch st b) k = none := by
  induction b generalizing st with
  | nil => exact h
  | cons op rest ih =>
    rw [writeBatch_cons]
    refine ih (fun v hv => hput v (List.mem_cons_of_mem _ hv)) _ ?_
    cases op with
    | put k2 v =>
      have h2 : k ≠ k2 := fun he => hput v (he ▸ List.mem_cons_self _ _)
      unfold applyOp
      rw [dbGet_put_ne st k2 v k h2]
      exact h
    | del k2 =>
      by_cases h2 : k = k2
      · subst h2
        unfold applyOp
        rw [dbGet_del_self]
      · unfold applyOp
        rw [dbGet_del_ne st k2 k h2]
        exact h

theorem dbGet_writeBatch_all_del {b : Batch} {k : Bytes}
    (hb : ∀ op ∈ b, ∃ k', op = BatchOp.del k') (hdel : BatchOp.del k ∈ b)
    (st : Store) : dbGet (writeBatch st b) k = none := by
  induction b generalizing st with
  | nil => exact absurd hdel (List.not_mem_nil _)
  | cons op rest ih =>
    rcases List.mem_cons.mp hdel with hop | hop
    · rw [writeBatch_cons, ← hop]
      apply dbGet_writeBatch_none
      · intro v hv
        rcases hb _ (List.mem_cons_of_mem _ hv) with ⟨k', hk'⟩
        exact BatchOp.noConfusion hk'
      · unfold applyOp
        rw [dbGet_del_self]
    · rw [writeBatch_cons]
      exact ih (fun o ho => hb o (List.mem_cons_of_mem _ ho)) hop _

/-! ### The index operations (`db.go`) -/

/-- Go `PlaceMIME`: write the single MIME record `mime|mime|ref`
(value nil, modelled as the empty byte string). -/
def PlaceMIME (st : Store) (ref mime : Bytes) : Store :=
  dbPut st (pack mimeType [mime, ref]) []

/-- The write batch Go `Place` builds before committing, in insertion
order: the found record, the `last` pointer, the optional type record,
then per dependency a parent edge followed (when the dependency has no
committed found record) by a missing record, and finally one delete per
key yielded by the deletion scan over `missing|ref|*`.  The scanned keys
are passed explicitly so that a partially failed iterator can also be
modelled.  Record values are `pack(location)`, and `pack` of a bare
string is that string. -/
def placeBatch (st : Store) (ref location ct : Bytes) (deps : List Bytes)
    (scanned : List Bytes) : Batch :=
  [BatchOp.put (pack found [ref]) location, BatchOp.put (pack last []) location]
    ++ (if ct ≠ [] then [BatchOp.put (pack camliType [ct, ref]) []] else [])
    ++ (deps.map (fun dep =>
          BatchOp.put (pack parent [dep, ref]) [] ::
            (if dbHas st (pack found [dep]) then [] else
              [BatchOp.put (pack missing [dep, ref]) []]))).join
    ++ scanned.map BatchOp.del

/-- Keys yielded by the deletion scan inside Go `Place`: all committed
keys in the range `missing|ref|*`, in key order. -/
def placeScan (st : Store) (ref : Bytes) : List Bytes :=
  (dbScan st (pack missing [ref, start]) (pack missing [ref, limit])).map
    (fun e => e.1)

/-- Go `Place`: note the presence of a blob at a location, performing all
index maintenance in one atomic batch. -/
def Place (st : Store) (ref location ct : Bytes) (deps : List Bytes) : Store :=
  writeBatch st (placeBatch st ref location ct deps (placeScan st ref))

/-- Go `Place` under an explicit iterator-fault model for the deletion
scan: `scanned` is whatever keys the iterator yielded before stopping,
and `ierr` is the error it reports afterwards (`it.Error()`).  Mirrors
the Go control flow: the iterator error is printed to the operator log
(`fmt.Println`) and otherwise ignored, the batch is committed regardless,
and the caller sees only the commit error (commits are modelled as
succeeding, hence `none`).  Result: (new state, logged error, returned
error). -/
def PlaceWithScanErr (st : Store) (ref location ct : Bytes) (deps : List Bytes)
    (scanned : List Bytes) (ierr : Option String) :
    Store × Option String × Option String :=
  (writeBatch st (placeBatch st ref location ct deps scanned), ierr, none)

/-- Go `Last`: point read of the `last` key.  `rerr` models a failing
read; an absent key makes leveldb `Get` return `ErrNotFound`, so absence
takes the same logged-error path.  Result: (returned location, logged
error). -/
def Last (st : Store) (rerr : Option String) : Bytes × Option String :=
  match rerr with
  | some e => ([], some e)
  | none =>
    match dbGet st (pack last []) with
    | some data => (data, none)
    | none => ([], some "leveldb: not found")

/-- Go `streamBlobs`: emit field `refPos` of every key in the range, in
key order (the order of channel sends). -/
def streamBlobs (st : Store) (refPos : Nat) (lo hi : Bytes) : List Bytes :=
  (dbScan st lo hi).map (fun e => (unpack e.1).getD refPos [])

/-- Go `Missing`: stream the dependency field of every missing record. -/
def Missing (st : Store) : List Bytes :=
  streamBlobs st 1 (pack missing [start]) (pack missing [limit])

/-- Go `List` (named `ListType` here since `List` is the Lean list type):
stream refs carrying a given type tag, or all type records when the tag
is empty. -/
def ListType (st : Store) (ct : Bytes) : List Bytes :=
  if ct ≠ [] then
    streamBlobs st 2 (pack camliType [ct, start]) (pack camliType [ct, limit])
  else
    streamBlobs st 2 (pack camliType [start]) (pack camliType [limit])

/-- Go `ListMIME`: stream refs registered with a given MIME type. -/
def ListMIME (st : Store) (mt : Bytes) : List Bytes :=
  streamBlobs st 2 (pack mimeType [mt, start]) (pack mimeType [mt, limit])

/-- Aggregate counters of Go `Stats`; the Go maps become functions. -/
structure Stats where
  Blobs : Nat
  Links : Nat
  Missing : Nat
  Unknown : Nat
  CamliTypes : Bytes → Nat
  MIMETypes : Bytes → Nat

/-- Histogram increment (`m[key]++`). -/
def bump (m : Bytes → Nat) (k : Bytes) : Bytes → Nat :=
  fun x => if x = k then m x + 1 else m x

/-- Classification of one key during the `Stats` scan (the `switch` on
`parts[0]` in Go `Stats`); `(unpack k).headD []` is `parts[0]`,
`(unpack k).getD 1 []` is `parts[1]`. -/
def statsStep (s : Stats) (k : Bytes) : Stats :=
  if (unpack k).headD [] = last then s
  else if (unpack k).headD [] = found then { s with Blobs := s.Blobs + 1 }
  else if (unpack k).headD [] = parent then { s with Links := s.Links + 1 }
  else if (unpack k).headD [] = missing then { s with Missing := s.Missing + 1 }
  else if (unpack k).headD [] = camliType then
    { s with CamliTypes := bump s.CamliTypes ((unpack k).getD 1 []) }
  else if (unpack k).headD [] = mimeType then
    { s with MIMETypes := bump s.MIMETypes ((unpack k).getD 1 []) }
  else { s with Unknown := s.Unknown + 1 }

/-- Go `Stats`: one full scan of the index, classifying every key. -/
def StatsOf (st : Store) : Stats :=
  st.foldl (fun s e => statsStep s e.1) ⟨0, 0, 0, 0, fun _ => 0, fun _ => 0⟩

/-- The scan body of Go `Parents`: field 2 (the declaring ref) of every
key in `parent|ref|*`, in key order. -/
def ParentsScan (st : Store) (ref : Bytes) : List Bytes :=
  (dbScan st (pack parent [ref, start]) (pack parent [ref, limit])).map
    (fun e => (unpack e.1).getD 2 [])

/-- Go `Parents`: the collected scan, or the iterator error
(`err = it.Error()`, modelled by `ierr`) when there was one. -/
def Parents (st : Store) (ref : Bytes) (ierr : Option String) :
    Except String (List Bytes) :=
  match ierr with
  | some e => Except.error e
  | none => Except.ok (ParentsScan st ref)

/-- The `for _, parent := range parents` loop of Go
`streamAllParentPaths`, with the recursive call abstracted as `f`: stops
at the first failing recursive call, concatenates the emitted paths in
order.  `none` means a subcomputation ran out of fuel. -/
def streamKids (f : List Bytes → Bytes → Option (Except String (List (List Bytes)))) :
    List Bytes → List Bytes → Option (Except String (List (List Bytes)))
  | _, [] => some (Except.ok [])
  | path, p :: rest =>
    match f (path ++ [p]) p with
    | none => none
    | some (Except.error e) => some (Except.error e)
    | some (Except.ok a) =>
      match streamKids f path rest with
      | none => none
      | some (Except.error e) => some (Except.error e)
      | some (Except.ok b) => some (Except.ok (a ++ b))

/-- Go `streamAllParentPaths`, fuel-indexed (the Go recursion has no
termination guard, so `none` models exceeding the fuel).  `ferr` is the
iterator-fault oracle for the inner `Parents` call on each ref.  Emits,
in order, every complete parent path of `ref`; when `ref` has no parents
the accumulated path is emitted. -/
def streamAllParentPathsAux (st : Store) (ferr : Bytes → Option String) :
    Nat → List Bytes → Bytes → Option (Except String (List (List Bytes)))
  | 0, _, _ => none
  | fuel + 1, path, ref =>
    match Parents st ref (ferr ref) with
    | Except.error e => some (Except.error e)
    | Except.ok parents =>
      if parents = [] then some (Except.ok [path])
      else streamKids (fun path' p => streamAllParentPathsAux st ferr fuel path' p)
        path parents

/-- Go `StreamAllParentPaths`: start the recursion with the empty path.
The default fuel `st.length + 1` is enough for any acyclic store. -/
def StreamAllParentPaths (st : Store) (ferr : Bytes → Option String) (ref : Bytes) :
    Option (Except String (List (List Bytes))) :=
  streamAllParentPathsAux st ferr (st.length + 1) [] ref

/-! ### Operation sequences -/

/-- One write operation of the index API. -/
inductive Op
  | place (ref location ct : Bytes) (deps : List Bytes)
  | placeMIME (ref mime : Bytes)

/-- Apply one operation. -/
def runOp (st : Store) : Op → Store
  | .place r l c d => Place st r l c d
  | .placeMIME r m => PlaceMIME st r m

/-- Apply a sequence of operations in order. -/
def run (st : Store) (ops : List Op) : Store := ops.foldl runOp st

/-- Well-formed operation arguments. -/
def GoodOp : Op → Prop
  | .place r _ c d =>
      goodRef r = true ∧ (c = [] ∨ goodRef c = true) ∧ ∀ x ∈ d, goodRef x = true
  | .placeMIME r m => goodRef r = true ∧ goodRef m = true

/-- Refs recorded by `place` operations, in order. -/
def placedRefs : List Op → List Bytes
  | [] => []
  | .place r _ _ _ :: ops => r :: placedRefs ops
  | .placeMIME _ _ :: ops => placedRefs ops

/-- Dependency edges `(dep, declaring ref)` declared by `place`
operations, in order. -/
def declaredEdges : List Op → List (Bytes × Bytes)
  | [] => []
  | .place r _ _ ds :: ops => ds.map (fun d => (d, r)) ++ declaredEdges ops
  | .placeMIME _ _ :: ops => declaredEdges ops

theorem run_nil (st : Store) : run st [] = st := rfl

theorem run_cons (st : Store) (op : Op) (ops : List Op) :
    run st (op :: ops) = run (runOp st op) ops := rfl

/-! ### Membership in the `Place` batch -/

theorem mem_placeBatch_iff {st : Store} {ref location ct : Bytes}
    {deps scanned : List Bytes} {op : BatchOp} :
    op ∈ placeBatch st ref location ct deps scanned ↔
      op = BatchOp.put (pack found [ref]) location ∨
      op = BatchOp.put (pack last []) location ∨
      (ct ≠ [] ∧ op = BatchOp.put (pack camliType [ct, ref]) []) ∨
      (∃ d ∈ deps, op = BatchOp.put (pack parent [d, ref]) []) ∨
      (∃ d ∈ deps, dbHas st (pack found [d]) = false ∧
        op = BatchOp.put (pack missing [d, ref]) []) ∨
      (∃ k ∈ scanned, op = BatchOp.del k) := by
  have hdep : ∀ d : Bytes,
      (op ∈ BatchOp.put (pack parent [d, ref]) [] ::
        (if dbHas st (pack found [d]) then [] else
          [BatchOp.put (pack missing [d, ref]) []])) ↔
      (op = BatchOp.put (pack parent [d, ref]) [] ∨
        (dbHas st (pack found [d]) = false ∧
          op = BatchOp.put (pack missing [d, ref]) [])) := by
    intro d
    rcases Bool.eq_false_or_eq_true (dbHas st (pack found [d])) with hh | hh
    · simp [hh]
    · simp [hh]
  simp only [placeBatch, List.mem_append]
  have h1 : op ∈ ([BatchOp.put (pack found [ref]) location,
      BatchOp.put (pack last []) location] : Batch) ↔
      (op = BatchOp.put (pack found [ref]) location ∨
        op = BatchOp.put (pack last []) location) := by
    simp
  have h2 : op ∈ (if ct ≠ [] then [BatchOp.put (pack camliType [ct, ref]) []]
      else ([] : Batch)) ↔ (ct ≠ [] ∧ op = BatchOp.put (pack camliType [ct, ref]) []) := by
    by_cases hct : ct = []
    · simp [hct]
    · simp [hct]
  have h3 : op ∈ (deps.map (fun dep =>
        BatchOp.put (pack parent [dep, ref]) [] ::
          (if dbHas st (pack found [dep]) then [] else
            [BatchOp.put (pack missing [dep, ref]) []]))).join ↔
      ((∃ d ∈ deps, op = BatchOp.put (pack parent [d, ref]) []) ∨
        (∃ d ∈ deps, dbHas st (pack found [d]) = false ∧
          op = BatchOp.put (pack missing [d, ref]) [])) := by
    rw [List.mem_join]
    constructor
    · rintro ⟨l, hl, hop⟩
      rcases List.mem_map.mp hl with ⟨d, hd, hfd⟩
      rw [← hfd] at hop
      rcases (hdep d).mp hop with h | h
      · exact Or.inl ⟨d, hd, h⟩
      · exact Or.inr ⟨d, hd, h⟩
    · rintro (⟨d, hd, h⟩ | ⟨d, hd, h⟩)
      · exact ⟨_, List.mem_map_of_mem _ hd, (hdep d).mpr (Or.inl h)⟩
      · exact ⟨_, List.mem_map_of_mem _ hd, (hdep d).mpr (Or.inr h)⟩
  have h4 : op ∈ scanned.map BatchOp.del ↔ (∃ k ∈ scanned, op = BatchOp.del k) := by
    rw [List.mem_map]
    constructor
    · rintro ⟨k, hk, hop⟩
      exact ⟨k, hk, hop.symm⟩
    · rintro ⟨k, hk, hop⟩
      exact ⟨k, hk, hop.symm⟩
  rw [h1, h2, h3, h4]
  simp only [or_assoc]

/-! ### Effects of a single `Place` on individual keys -/

theorem pack2_tag_ne {T T' a b a' b' : Bytes} (hT : ∀ c ∈ T, c ≠ '|')
    (hT' : ∀ c ∈ T', c ≠ '|') (hne : T ≠ T') :
    pack T [a, b] ≠ pack T' [a', b'] := by
  intro h
  rw [pack2_eq, pack2_eq] at h
  exact hne (pipe_split_inj hT hT' h).1

theorem pack1_found_inj {r r' : Bytes} (h : pack found [r] = pack found [r']) :
    r = r' := by
  rw [pack1_eq, pack1_eq] at h
  have := List.append_cancel_left h
  exact List.tail_eq_of_cons_eq this

theorem placeScan_mem_shape {st : Store} {ref k : Bytes}
    (hk : k ∈ placeScan st ref) : ∃ c t, k = pack missing [ref, c :: t] := by
  unfold placeScan at hk
  rcases List.mem_map.mp hk with ⟨e, he, hek⟩
  have hin : inRange (pack missing [ref, start]) (pack missing [ref, limit]) e.1 = true :=
    (List.mem_filter.mp he).2
  rcases (inRange_pack2_iff missing ref e.1).mp hin with ⟨c, t, hke, _⟩
  exact ⟨c, t, by rw [← hek, hke]⟩

/-- Inversion for `GoodKey`: the six written shapes. -/
theorem goodKey_inv {k : Bytes} (h : GoodKey k) :
    k = pack last [] ∨
    (∃ r, goodRef r = true ∧ k = pack found [r]) ∨
    (∃ c r, goodRef c = true ∧ goodRef r = true ∧ k = pack camliType [c, r]) ∨
    (∃ m r, goodRef m = true ∧ goodRef r = true ∧ k = pack mimeType [m, r]) ∨
    (∃ d r, goodRef d = true ∧ goodRef r = true ∧ k = pack parent [d, r]) ∨
    (∃ d r, goodRef d = true ∧ goodRef r = true ∧ k = pack missing [d, r]) := by
  cases h with
  | lastK => exact Or.inl rfl
  | foundK r hr => exact Or.inr (Or.inl ⟨r, hr, rfl⟩)
  | typeK c r hc hr => exact Or.inr (Or.inr (Or.inl ⟨c, r, hc, hr, rfl⟩))
  | mimeK m r hm hr => exact Or.inr (Or.inr (Or.inr (Or.inl ⟨m, r, hm, hr, rfl⟩)))
  | parentK d r hd hr =>
      exact Or.inr (Or.inr (Or.inr (Or.inr (Or.inl ⟨d, r, hd, hr, rfl⟩))))
  | missingK d r hd hr =>
      exact Or.inr (Or.inr (Or.inr (Or.inr (Or.inr ⟨d, r, hd, hr, rfl⟩))))

theorem mem_placeScan_of_has {st : Store} {ref y : Bytes} (wf : DBwf st)
    (href : goodRef ref = true) (h : dbHas st (pack missing [ref, y]) = true) :
    pack missing [ref, y] ∈ placeScan st ref ∧ goodRef y = true := by
  rcases (dbHas_iff st _).mp h with ⟨e, he, hek⟩
  have hgk : GoodKey (pack missing [ref, y]) := hek ▸ wf.2 e he
  have hy : goodRef y = true := by
    rcases goodKey_inv hgk with hL | ⟨r, hr, hk⟩ | ⟨c, r, hc, hr, hk⟩ |
      ⟨m, r, hm, hr, hk⟩ | ⟨d, r, hd, hr, hk⟩ | ⟨d, r, hd, hr, hk⟩
    · rw [pack2_eq] at hL
      exact absurd hL (pack_ne_last missing_pipeFree _)
    · exact absurd hk
        (pack2_ne_pack1 missing_pipeFree found_pipeFree (goodRef_pipeFree hr))
    · exact absurd hk (pack2_tag_ne missing_pipeFree camliType_pipeFree (by decide))
    · exact absurd hk (pack2_tag_ne missing_pipeFree mimeType_pipeFree (by decide))
    · exact absurd hk (pack2_tag_ne missing_pipeFree parent_pipeFree (by decide))
    · rcases pack2_inj missing_pipeFree missing_pipeFree
        (goodRef_pipeFree href) (goodRef_pipeFree hd) hk with ⟨_, _, hyr⟩
      rw [hyr]
      exact hr
  refine ⟨?_, hy⟩
  unfold placeScan
  apply List.mem_map.mpr
  refine ⟨e, ?_, hek⟩
  unfold dbScan
  apply List.mem_filter.mpr
  refine ⟨he, ?_⟩
  rw [hek]
  exact (goodKey_missingRange href hgk).mpr ⟨y, hy, rfl⟩

theorem dbGet_writeBatch_single_put {b : Batch} {k v : Bytes}
    (hmem : BatchOp.put k v ∈ b)
    (hunique : ∀ op ∈ b, opKey op = k → op = BatchOp.put k v) (st : Store) :
    dbGet (writeBatch st b) k = some v := by
  induction b generalizing st with
  | nil => exact absurd hmem (List.not_mem_nil _)
  | cons op rest ih =>
    by_cases hrest : BatchOp.put k v ∈ rest
    · rw [writeBatch_cons]
      exact ih hrest (fun o ho hk => hunique o (List.mem_cons_of_mem _ ho) hk) _
    · rcases List.mem_cons.mp hmem with hop | hop
      · rw [writeBatch_cons, ← hop]
        have huntouched : ∀ o ∈ rest, opKey o ≠ k := by
          intro o ho hk
        -- any later operation on `k` would have to be this same put
          have := hunique o (List.mem_cons_of_mem _ ho) hk
          rw [this] at ho
          exact hrest ho
        rw [dbGet_writeBatch_untouched huntouched]
        exact dbGet_put_self st k v
      · exact absurd hop hrest

/-- After `Place`, the found record of the placed ref holds the new
location. -/
theorem dbGet_Place_found_self {st : Store} {ref location ct : Bytes}
    {deps : List Bytes} (href : goodRef ref = true) :
    dbGet (Place st ref location ct deps) (pack found [ref]) = some location := by
  apply dbGet_writeBatch_single_put (mem_placeBatch_iff.mpr (Or.inl rfl))
  intro op hop hk
  rcases mem_placeBatch_iff.mp hop with h | h | ⟨_, h⟩ | ⟨d, _, h⟩ | ⟨d, _, _, h⟩ | ⟨k', hk', h⟩
  · rw [h]
  · rw [h] at hk
    exfalso
    apply pack_ne_last found_pipeFree ref
    rw [← pack1_eq]
    exact hk.symm
  · rw [h] at hk
    exact absurd hk (pack2_ne_pack1 camliType_pipeFree found_pipeFree (goodRef_pipeFree href))
  · rw [h] at hk
    exact absurd hk (pack2_ne_pack1 parent_pipeFree found_pipeFree (goodRef_pipeFree href))
  · rw [h] at hk
    exact absurd hk (pack2_ne_pack1 missing_pipeFree found_pipeFree (goodRef_pipeFree href))
  · rcases placeScan_mem_shape hk' with ⟨c, t, hshape⟩
    rw [h] at hk
    rw [hshape] at hk
    exact absurd hk (pack2_ne_pack1 missing_pipeFree found_pipeFree (goodRef_pipeFree href))

/-- After `Place`, the `last` key holds the new location. -/
theorem dbGet_Place_last {st : Store} {ref location ct : Bytes}
    {deps : List Bytes} :
    dbGet (Place st ref location ct deps) (pack last []) = some location := by
  apply dbGet_writeBatch_single_put (mem_placeBatch_iff.mpr (Or.inr (Or.inl rfl)))
  intro op hop hk
  rcases mem_placeBatch_iff.mp hop with h | h | ⟨_, h⟩ | ⟨d, _, h⟩ | ⟨d, _, _, h⟩ | ⟨k', hk', h⟩
  · rw [h] at hk
    rw [pack1_eq] at hk
    exact absurd hk (pack_ne_last found_pipeFree ref)
  · rw [h]
  · rw [h] at hk
    rw [pack2_eq] at hk
    exact absurd hk (pack_ne_last camliType_pipeFree _)
  · rw [h] at hk
    rw [pack2_eq] at hk
    exact absurd hk (pack_ne_last parent_pipeFree _)
  · rw [h] at hk
    rw [pack2_eq] at hk
    exact absurd hk (pack_ne_last missing_pipeFree _)
  · rcases placeScan_mem_shape hk' with ⟨c, t, hshape⟩
    rw [h] at hk
    rw [hshape, pack2_eq] at hk
    exact absurd hk (pack_ne_last missing_pipeFree _)

/-- `Place` does not touch the found record of any other ref. -/
theorem dbGet_Place_found_other {st : Store} {ref location ct x : Bytes}
    {deps : List Bytes} (hx : ∀ c ∈ x, c ≠ '|') (hne : x ≠ ref) :
    dbGet (Place st ref location ct deps) (pack found [x]) =
      dbGet st (pack found [x]) := by
  apply dbGet_writeBatch_untouched
  intro op hop hk
  rcases mem_placeBatch_iff.mp hop with h | h | ⟨_, h⟩ | ⟨d, _, h⟩ | ⟨d, _, _, h⟩ | ⟨k', hk', h⟩
  · rw [h] at hk
    exact hne (pack1_found_inj hk).symm
  · rw [h] at hk
    exact (pack_ne_last found_pipeFree x) (by rw [← pack1_eq]; exact hk.symm)
  · rw [h] at hk
    exact (pack2_ne_pack1 camliType_pipeFree found_pipeFree hx) hk
  · rw [h] at hk
    exact (pack2_ne_pack1 parent_pipeFree found_pipeFree hx) hk
  · rw [h] at hk
    exact (pack2_ne_pack1 missing_pipeFree found_pipeFree hx) hk
  · rcases placeScan_mem_shape hk' with ⟨c, t, hshape⟩
    rw [h] at hk
    rw [hshape] at hk
    exact (pack2_ne_pack1 missing_pipeFree found_pipeFree hx) hk

/-- `Place` records a parent edge for every declared dependency. -/
theorem dbHas_Place_parent {st : Store} {ref location ct d : Bytes}
    {deps : List Bytes} (hd : d ∈ deps) :
    dbHas (Place st ref location ct deps) (pack parent [d, ref]) = true := by
  apply dbHas_writeBatch_of_put (mem_placeBatch_iff.mpr
    (Or.inr (Or.inr (Or.inr (Or.inl ⟨d, hd, rfl⟩)))))
  intro k' hmem heq
  rcases mem_placeBatch_iff.mp hmem with h | h | ⟨_, h⟩ | ⟨_, _, h⟩ | ⟨_, _, _, h⟩ | ⟨k'', hk'', h⟩
  · exact BatchOp.noConfusion h
  · exact BatchOp.noConfusion h
  · exact BatchOp.noConfusion h
  · exact BatchOp.noConfusion h
  · exact BatchOp.noConfusion h
  · injection h with hkk
    rcases placeScan_mem_shape hk'' with ⟨c, t, hshape⟩
    rw [hkk, hshape] at heq
    exact (pack2_tag_ne missing_pipeFree parent_pipeFree (by decide)) heq

/-- Every delete in the batch built by `Place` targets a key of the
shape `missing|ref|…`. -/
theorem placeBatch_del_shape {st : Store} {ref location ct k' : Bytes}
    {deps : List Bytes}
    (hmem : BatchOp.del k' ∈ placeBatch st ref location ct deps (placeScan st ref)) :
    ∃ c t, k' = pack missing [ref, c :: t] := by
  rcases mem_placeBatch_iff.mp hmem with h | h | ⟨_, h⟩ | ⟨_, _, h⟩ | ⟨_, _, _, h⟩ |
    ⟨k'', hk'', h⟩
  · exact BatchOp.noConfusion h
  · exact BatchOp.noConfusion h
  · exact BatchOp.noConfusion h
  · exact BatchOp.noConfusion h
  · exact BatchOp.noConfusion h
  · injection h with hkk
    rcases placeScan_mem_shape hk'' with ⟨c, t, hs⟩
    exact ⟨c, t, hkk.trans hs⟩

/-- Found records after `Place`: the placed ref's own, plus everything
already there. -/
theorem dbHas_Place_found_iff {st : Store} {ref location ct x : Bytes}
    {deps : List Bytes} (hx : goodRef x = true) :
    dbHas (Place st ref location ct deps) (pack found [x]) = true ↔
      (dbHas st (pack found [x]) = true ∨ x = ref) := by
  by_cases he : x = ref
  · subst he
    unfold dbHas
    rw [dbGet_Place_found_self hx]
    simp
  · unfold dbHas
    rw [dbGet_Place_found_other (goodRef_pipeFree hx) he]
    simp [he]

/-- Parent edges after `Place`: the freshly declared ones, plus
everything already there; nothing is ever deleted. -/
theorem dbHas_Place_parent_iff {st : Store} {ref location ct x y : Bytes}
    {deps : List Bytes} (href : goodRef ref = true)
    (hdeps : ∀ d ∈ deps, goodRef d = true) (hx : goodRef x = true) :
    dbHas (Place st ref location ct deps) (pack parent [x, y]) = true ↔
      (dbHas st (pack parent [x, y]) = true ∨ (y = ref ∧ x ∈ deps)) := by
  constructor
  · intro h
    rcases (dbHas_iff _ _).mp h with ⟨e, he, hek⟩
    rcases mem_writeBatch he with hest | ⟨v, hput⟩
    · exact Or.inl ((dbHas_iff st _).mpr ⟨e, hest, hek⟩)
    · rw [hek] at hput
      rcases mem_placeBatch_iff.mp hput with h' | h' | ⟨_, h'⟩ | ⟨d, hd, h'⟩ |
        ⟨d, hd, _, h'⟩ | ⟨k', _, h'⟩
      · injection h' with hk _
        exact absurd hk
          (pack2_ne_pack1 parent_pipeFree found_pipeFree (goodRef_pipeFree href))
      · injection h' with hk _
        rw [pack2_eq] at hk
        exact absurd hk (pack_ne_last parent_pipeFree _)
      · injection h' with hk _
        exact absurd hk (pack2_tag_ne parent_pipeFree camliType_pipeFree (by decide))
      · injection h' with hk _
        rcases pack2_inj parent_pipeFree parent_pipeFree (goodRef_pipeFree hx)
          (goodRef_pipeFree (hdeps d hd)) hk with ⟨_, hxd, hyr⟩
        exact Or.inr ⟨hyr, hxd ▸ hd⟩
      · injection h' with hk _
        exact absurd hk (pack2_tag_ne parent_pipeFree missing_pipeFree (by decide))
      · exact BatchOp.noConfusion h'
  · rintro (h | ⟨hy, hxd⟩)
    · refine dbHas_writeBatch_mono ?_ st h
      intro k' hmem heq
      rcases placeBatch_del_shape hmem with ⟨c, t, hs⟩
      rw [hs] at heq
      exact (pack2_tag_ne missing_pipeFree parent_pipeFree (by decide)) heq
    · subst hy
      exact dbHas_Place_parent hxd

/-- `Place` writes a missing record for a dependency that has no found
record, and (when the dependency is not the placed ref itself) the record
survives the deletion scan. -/
theorem dbHas_Place_missing_new {st : Store} {ref location ct d : Bytes}
    {deps : List Bytes} (href : goodRef ref = true) (hd' : goodRef d = true)
    (hd : d ∈ deps) (hne : d ≠ ref)
    (hnf : dbHas st (pack found [d]) = false) :
    dbHas (Place st ref location ct deps) (pack missing [d, ref]) = true := by
  apply dbHas_writeBatch_of_put (mem_placeBatch_iff.mpr
    (Or.inr (Or.inr (Or.inr (Or.inr (Or.inl ⟨d, hd, hnf, rfl⟩))))))
  intro k' hmem heq
  rcases placeBatch_del_shape hmem with ⟨c, t, hs⟩
  rw [hs] at heq
  rcases pack2_inj missing_pipeFree missing_pipeFree (goodRef_pipeFree href)
    (goodRef_pipeFree hd') heq with ⟨_, hrd, _⟩
  exact hne hrd.symm

/-- Missing records of a dependency other than the placed ref after
`Place`: the freshly written one, plus everything already there. -/
theorem dbHas_Place_missing_iff {st : Store} {ref location ct x y : Bytes}
    {deps : List Bytes} (href : goodRef ref = true)
    (hdeps : ∀ d ∈ deps, goodRef d = true) (hx : goodRef x = true)
    (hxr : x ≠ ref) :
    dbHas (Place st ref location ct deps) (pack missing [x, y]) = true ↔
      (dbHas st (pack missing [x, y]) = true ∨
        (y = ref ∧ x ∈ deps ∧ dbHas st (pack found [x]) = false)) := by
  constructor
  · intro h
    rcases (dbHas_iff _ _).mp h with ⟨e, he, hek⟩
    rcases mem_writeBatch he with hest | ⟨v, hput⟩
    · exact Or.inl ((dbHas_iff st _).mpr ⟨e, hest, hek⟩)
    · rw [hek] at hput
      rcases mem_placeBatch_iff.mp hput with h' | h' | ⟨_, h'⟩ | ⟨d, hd, h'⟩ |
        ⟨d, hd, hnf, h'⟩ | ⟨k', _, h'⟩
      · injection h' with hk _
        exact absurd hk
          (pack2_ne_pack1 missing_pipeFree found_pipeFree (goodRef_pipeFree href))
      · injection h' with hk _
        rw [pack2_eq] at hk
        exact absurd hk (pack_ne_last missing_pipeFree _)
      · injection h' with hk _
        exact absurd hk (pack2_tag_ne missing_pipeFree camliType_pipeFree (by decide))
      · injection h' with hk _
        exact absurd hk (pack2_tag_ne missing_pipeFree parent_pipeFree (by decide))
      · injection h' with hk _
        rcases pack2_inj missing_pipeFree missing_pipeFree (goodRef_pipeFree hx)
          (goodRef_pipeFree (hdeps d hd)) hk with ⟨_, hxd, hyr⟩
        exact Or.inr ⟨hyr, hxd ▸ hd, hxd ▸ hnf⟩
      · exact BatchOp.noConfusion h'
  · rintro (h | ⟨hy, hxd, hnf⟩)
    · refine dbHas_writeBatch_mono ?_ st h
      intro k' hmem heq
      rcases placeBatch_del_shape hmem with ⟨c, t, hs⟩
      rw [hs] at heq
      rcases pack2_inj missing_pipeFree missing_pipeFree (goodRef_pipeFree href)
        (goodRef_pipeFree hx) heq with ⟨_, hrx, _⟩
      exact hxr hrx.symm
    · subst hy
      exact dbHas_Place_missing_new href hx hxd hxr hnf

theorem placeBatch_split (st : Store) (ref location ct : Bytes)
    (deps scanned : List Bytes) :
    placeBatch st ref location ct deps scanned =
      ([BatchOp.put (pack found [ref]) location,
        BatchOp.put (pack last []) location]
        ++ (if ct ≠ [] then [BatchOp.put (pack camliType [ct, ref]) []] else [])
        ++ (deps.map (fun dep =>
              BatchOp.put (pack parent [dep, ref]) [] ::
                (if dbHas st (pack found [dep]) then [] else
                  [BatchOp.put (pack missing [dep, ref]) []]))).join)
        ++ scanned.map BatchOp.del := by
  unfold placeBatch
  simp [List.append_assoc]

/-- After `Place(ref, …)` with `ref` not among its own dependencies, no
missing record naming `ref` as the dependency remains: the committed ones
are all scanned and deleted in the batch, and none is re-created. -/
theorem dbHas_Place_missing_self {st : Store} {ref location ct : Bytes}
    {deps : List Bytes} (wf : DBwf st) (href : goodRef ref = true)
    (hdeps : ∀ d ∈ deps, goodRef d = true) (hnd : ref ∉ deps) (y : Bytes) :
    dbHas (Place st ref location ct deps) (pack missing [ref, y]) = false := by
  by_cases hst : dbHas st (pack missing [ref, y]) = true
  · obtain ⟨hmem, _⟩ := mem_placeScan_of_has wf href hst
    unfold Place dbHas
    rw [placeBatch_split, writeBatch_append]
    rw [dbGet_writeBatch_all_del ?_ (List.mem_map_of_mem _ hmem)]
    · rfl
    · intro op hop
      rcases List.mem_map.mp hop with ⟨k'', _, h⟩
      exact ⟨k'', h.symm⟩
  · have h0 : dbGet st (pack missing [ref, y]) = none := by
      unfold dbHas at hst
      cases hg : dbGet st (pack missing [ref, y]) with
      | none => rfl
      | some v => rw [hg] at hst; exact absurd rfl hst
    unfold Place dbHas
    rw [dbGet_writeBatch_none ?_ st h0]
    · rfl
    · intro v hmem
      rcases mem_placeBatch_iff.mp hmem with h' | h' | ⟨_, h'⟩ | ⟨d, hd, h'⟩ |
        ⟨d, hd, _, h'⟩ | ⟨k', _, h'⟩
      · injection h' with hk _
        exact (pack2_ne_pack1 missing_pipeFree found_pipeFree
          (goodRef_pipeFree href)) hk
      · injection h' with hk _
        rw [pack2_eq] at hk
        exact (pack_ne_last missing_pipeFree _) hk
      · injection h' with hk _
        exact (pack2_tag_ne missing_pipeFree camliType_pipeFree (by decide)) hk
      · injection h' with hk _
        exact (pack2_tag_ne missing_pipeFree parent_pipeFree (by decide)) hk
      · injection h' with hk _
        rcases pack2_inj missing_pipeFree missing_pipeFree (goodRef_pipeFree href)
          (goodRef_pipeFree (hdeps d hd)) hk with ⟨_, hrd, _⟩
        exact hnd (hrd ▸ hd)
      · exact BatchOp.noConfusion h'

/-! ### Preservation of store well-formedness -/

theorem GoodKeys.place_good {st : Store} {ref location ct : Bytes} {deps : List Bytes}
    (h : GoodKeys st) (href : goodRef ref = true)
    (hct : ct = [] ∨ goodRef ct = true) (hdeps : ∀ d ∈ deps, goodRef d = true) :
    GoodKeys (Place st ref location ct deps) := by
  intro e he
  rcases mem_writeBatch he with hest | ⟨v, hput⟩
  · exact h e hest
  · rcases mem_placeBatch_iff.mp hput with h' | h' | ⟨hcne, h'⟩ | ⟨d, hd, h'⟩ |
      ⟨d, hd, _, h'⟩ | ⟨k', _, h'⟩
    · injection h' with hk _
      rw [hk]
      exact GoodKey.foundK ref href
    · injection h' with hk _
      rw [hk]
      exact GoodKey.lastK
    · injection h' with hk _
      rw [hk]
      exact GoodKey.typeK ct ref (hct.resolve_left hcne) href
    · injection h' with hk _
      rw [hk]
      exact GoodKey.parentK d ref (hdeps d hd) href
    · injection h' with hk _
      rw [hk]
      exact GoodKey.missingK d ref (hdeps d hd) href
    · exact BatchOp.noConfusion h'

theorem DBwf.place {st : Store} {ref location ct : Bytes} {deps : List Bytes}
    (wf : DBwf st) (href : goodRef ref = true)
    (hct : ct = [] ∨ goodRef ct = true) (hdeps : ∀ d ∈ deps, goodRef d = true) :
    DBwf (Place st ref location ct deps) :=
  ⟨wf.1.writeBatch _, GoodKeys.place_good wf.2 href hct hdeps⟩

theorem GoodKeys.placeMIME_good {st : Store} {ref mime : Bytes} (h : GoodKeys st)
    (href : goodRef ref = true) (hm : goodRef mime = true) :
    GoodKeys (PlaceMIME st ref mime) := by
  intro e he
  rcases mem_dbPut he with he' | he'
  · rw [he']
    exact GoodKey.mimeK mime ref hm href
  · exact h e he'

theorem DBwf.placeMIME {st : Store} {ref mime : Bytes} (wf : DBwf st)
    (href : goodRef ref = true) (hm : goodRef mime = true) :
    DBwf (PlaceMIME st ref mime) :=
  ⟨wf.1.dbPut _ _, GoodKeys.placeMIME_good wf.2 href hm⟩

theorem DBwf.runOp {st : Store} {op : Op} (wf : DBwf st) (hop : GoodOp op) :
    DBwf (Cameloff.runOp st op) := by
  cases op with
  | place r l c d => exact wf.place hop.1 hop.2.1 hop.2.2
  | placeMIME r m => exact wf.placeMIME hop.1 hop.2

theorem DBwf.run {ops : List Op} (hops : ∀ op ∈ ops, GoodOp op) :
    ∀ {st : Store}, DBwf st → DBwf (run st ops) := by
  induction ops with
  | nil => exact fun wf => wf
  | cons op rest ih =>
    intro st wf
    rw [run_cons]
    exact ih (fun o ho => hops o (List.mem_cons_of_mem _ ho))
      (wf.runOp (hops op (List.mem_cons_self _ _)))

/-! ### Counting store entries against a key list -/

theorem countP_keys (p : Bytes → Bool) :
    ∀ l : Store, l.countP (fun e => p e.1) = ((l.map (fun e => e.1)).filter p).length := by
  intro l
  induction l with
  | nil => rfl
  | cons e t ih =>
    rw [List.countP_cons]
    by_cases hp : p e.1 = true
    · simp [hp, List.filter_cons, ih]
    · simp [hp, List.filter_cons, ih]

/-- The number of entries satisfying a key predicate equals the length of
any duplicate-free list of keys that (a) covers all matching keys and (b)
consists of present, matching keys. -/
theorem countP_store_eq_length {st : Store} (hs : Sorted st) (p : Bytes → Bool)
    {K : List Bytes} (hK : K.Nodup)
    (h1 : ∀ e ∈ st, p e.1 = true → e.1 ∈ K)
    (h2 : ∀ k ∈ K, dbHas st k = true ∧ p k = true) :
    st.countP (fun e => p e.1) = K.length := by
  rw [countP_keys]
  have hnodup : ((st.map (fun e => e.1)).filter p).Nodup := by
    have := hs.nodup_keys
    unfold keysOf at this
    exact this.filter p
  have hmemiff : ∀ k, k ∈ (st.map (fun e => e.1)).filter p ↔ k ∈ K := by
    intro k
    rw [List.mem_filter]
    constructor
    · rintro ⟨hkm, hp⟩
      rcases List.mem_map.mp hkm with ⟨e, he, rfl⟩
      exact h1 e he hp
    · intro hk
      obtain ⟨hhas, hp⟩ := h2 k hk
      rcases (dbHas_iff st k).mp hhas with ⟨e, he, hek⟩
      exact ⟨hek ▸ List.mem_map_of_mem _ he, hp⟩
  exact ((List.perm_ext_iff_of_nodup hnodup hK).mpr hmemiff).length_eq

/-! ### Decoding the fields of written keys -/

theorem head_unpack_pack2 {T : Bytes} (hT : ∀ c ∈ T, c ≠ '|') (a b : Bytes) :
    (unpack (pack T [a, b])).headD [] = T := by
  rw [pack2_eq]
  unfold unpack
  rw [splitPipe_append_pipe hT]
  rfl

theorem head_unpack_pack1 {T : Bytes} (hT : ∀ c ∈ T, c ≠ '|') (a : Bytes) :
    (unpack (pack T [a])).headD [] = T := by
  rw [pack1_eq]
  unfold unpack
  rw [splitPipe_append_pipe hT]
  rfl

theorem head_unpack_pack0 {T : Bytes} (hT : ∀ c ∈ T, c ≠ '|') :
    (unpack (pack T [])).headD [] = T := by
  rw [pack0_eq]
  unfold unpack
  rw [splitPipe_pipeFree hT]
  rfl

theorem second_unpack_pack2 {T a : Bytes} (hT : ∀ c ∈ T, c ≠ '|')
    (ha : ∀ c ∈ a, c ≠ '|') (b : Bytes) :
    (unpack (pack T [a, b])).getD 1 [] = a := by
  rw [pack2_eq]
  unfold unpack
  rw [splitPipe_append_pipe hT, splitPipe_append_pipe ha]
  rfl

theorem third_unpack_pack2 {T a b : Bytes} (hT : ∀ c ∈ T, c ≠ '|')
    (ha : ∀ c ∈ a, c ≠ '|') (hb : ∀ c ∈ b, c ≠ '|') :
    (unpack (pack T [a, b])).getD 2 [] = b := by
  rw [pack2_eq]
  unfold unpack
  rw [splitPipe_append_pipe hT, splitPipe_append_pipe ha, splitPipe_pipeFree hb]
  rfl

/-! ### `Stats` characterization -/

theorem statsStep_of_last {s : Stats} {k : Bytes}
    (h : (unpack k).headD [] = last) : statsStep s k = s := by
  unfold statsStep
  rw [if_pos h]

theorem statsStep_of_found {s : Stats} {k : Bytes}
    (h : (unpack k).headD [] = found) :
    statsStep s k = { s with Blobs := s.Blobs + 1 } := by
  unfold statsStep
  rw [if_neg (by rw [h]; decide), if_pos h]

theorem statsStep_of_parent {s : Stats} {k : Bytes}
    (h : (unpack k).headD [] = parent) :
    statsStep s k = { s with Links := s.Links + 1 } := by
  unfold statsStep
  rw [if_neg (by rw [h]; decide), if_neg (by rw [h]; decide), if_pos h]

theorem statsStep_of_missing {s : Stats} {k : Bytes}
    (h : (unpack k).headD [] = missing) :
    statsStep s k = { s with Missing := s.Missing + 1 } := by
  unfold statsStep
  rw [if_neg (by rw [h]; decide), if_neg (by rw [h]; decide),
    if_neg (by rw [h]; decide), if_pos h]

theorem statsStep_of_camliType {s : Stats} {k : Bytes}
    (h : (unpack k).headD [] = camliType) :
    statsStep s k =
      { s with CamliTypes := bump s.CamliTypes ((unpack k).getD 1 []) } := by
  unfold statsStep
  rw [if_neg (by rw [h]; decide), if_neg (by rw [h]; decide),
    if_neg (by rw [h]; decide), if_neg (by rw [h]; decide), if_pos h]

theorem statsStep_of_mimeType {s : Stats} {k : Bytes}
    (h : (unpack k).headD [] = mimeType) :
    statsStep s k =
      { s with MIMETypes := bump s.MIMETypes ((unpack k).getD 1 []) } := by
  unfold statsStep
  rw [if_neg (by rw [h]; decide), if_neg (by rw [h]; decide),
    if_neg (by rw [h]; decide), if_neg (by rw [h]; decide),
    if_neg (by rw [h]; decide), if_pos h]

theorem statsStep_Blobs (s : Stats) (k : Bytes) :
    (statsStep s k).Blobs =
      s.Blobs + (if (unpack k).headD [] = found then 1 else 0) := by
  unfold statsStep
  by_cases h1 : (unpack k).headD [] = last
  · rw [if_pos h1, if_neg (by rw [h1]; decide)]
    rfl
  · rw [if_neg h1]
    by_cases h2 : (unpack k).headD [] = found
    · rw [if_pos h2, if_pos h2]
    · rw [if_neg h2, if_neg h2]
      by_cases h3 : (unpack k).headD [] = parent
      · rw [if_pos h3]
        rfl
      · rw [if_neg h3]
        by_cases h4 : (unpack k).headD [] = missing
        · rw [if_pos h4]
          rfl
        · rw [if_neg h4]
          by_cases h5 : (unpack k).headD [] = camliType
          · rw [if_pos h5]
            rfl
          · rw [if_neg h5]
            by_cases h6 : (unpack k).headD [] = mimeType
            · rw [if_pos h6]
              rfl
            · rw [if_neg h6]
              rfl

theorem statsStep_Links (s : Stats) (k : Bytes) :
    (statsStep s k).Links =
      s.Links + (if (unpack k).headD [] = parent then 1 else 0) := by
  unfold statsStep
  by_cases h1 : (unpack k).headD [] = last
  · rw [if_pos h1, if_neg (by rw [h1]; decide)]
    rfl
  · rw [if_neg h1]
    by_cases h2 : (unpack k).headD [] = found
    · rw [if_pos h2, if_neg (by rw [h2]; decide)]
      rfl
    · rw [if_neg h2]
      by_cases h3 : (unpack k).headD [] = parent
      · rw [if_pos h3, if_pos h3]
      · rw [if_neg h3, if_neg h3]
        by_cases h4 : (unpack k).headD [] = missing
        · rw [if_pos h4]
          rfl
        · rw [if_neg h4]
          by_cases h5 : (unpack k).headD [] = camliType
          · rw [if_pos h5]
            rfl
          · rw [if_neg h5]
            by_cases h6 : (unpack k).headD [] = mimeType
            · rw [if_pos h6]
              rfl
            · rw [if_neg h6]
              rfl

theorem statsStep_Missing (s : Stats) (k : Bytes) :
    (statsStep s k).Missing =
      s.Missing + (if (unpack k).headD [] = missing then 1 else 0) := by
  unfold statsStep
  by_cases h1 : (unpack k).headD [] = last
  · rw [if_pos h1, if_neg (by rw [h1]; decide)]
    rfl
  · rw [if_neg h1]
    by_cases h2 : (unpack k).headD [] = found
    · rw [if_pos h2, if_neg (by rw [h2]; decide)]
      rfl
    · rw [if_neg h2]
      by_cases h3 : (unpack k).headD [] = parent
      · rw [if_pos h3, if_neg (by rw [h3]; decide)]
        rfl
      · rw [if_neg h3]
        by_cases h4 : (unpack k).headD [] = missing
        · rw [if_pos h4, if_pos h4]
        · rw [if_neg h4, if_neg h4]
          by_cases h5 : (unpack k).headD [] = camliType
          · rw [if_pos h5]
            rfl
          · rw [if_neg h5]
            by_cases h6 : (unpack k).headD [] = mimeType
            · rw [if_pos h6]
              rfl
            · rw [if_neg h6]
              rfl

theorem statsStep_CamliTypes (s : Stats) (k : Bytes) (x : Bytes) :
    (statsStep s k).CamliTypes x =
      s.CamliTypes x +
        (if (unpack k).headD [] = camliType ∧ (unpack k).getD 1 [] = x
          then 1 else 0) := by
  unfold statsStep
  by_cases h1 : (unpack k).headD [] = last
  · rw [if_pos h1, if_neg (fun hc => absurd (h1 ▸ hc.1) (by decide))]
    rfl
  · rw [if_neg h1]
    by_cases h2 : (unpack k).headD [] = found
    · rw [if_pos h2, if_neg (fun hc => absurd (h2 ▸ hc.1) (by decide))]
      rfl
    · rw [if_neg h2]
      by_cases h3 : (unpack k).headD [] = parent
      · rw [if_pos h3, if_neg (fun hc => absurd (h3 ▸ hc.1) (by decide))]
        rfl
      · rw [if_neg h3]
        by_cases h4 : (unpack k).headD [] = missing
        · rw [if_pos h4, if_neg (fun hc => absurd (h4 ▸ hc.1) (by decide))]
          rfl
        · rw [if_neg h4]
          by_cases h5 : (unpack k).headD [] = camliType
          · rw [if_pos h5]
            show bump s.CamliTypes ((unpack k).getD 1 []) x = _
            unfold bump
            by_cases h7 : (unpack k).getD 1 [] = x
            · rw [if_pos h7.symm, if_pos ⟨h5, h7⟩]
            · rw [if_neg (fun he => h7 he.symm), if_neg (fun hc => h7 hc.2)]
              rfl
          · rw [if_neg h5,
              if_neg (show ¬((unpack k).headD [] = camliType ∧
                (unpack k).getD 1 [] = x) from fun hc => h5 hc.1)]
            by_cases h6 : (unpack k).headD [] = mimeType
            · rw [if_pos h6]
              rfl
            · rw [if_neg h6]
              rfl

theorem statsOf_Blobs (st : Store) :
    (StatsOf st).Blobs =
      st.countP (fun e => decide ((unpack e.1).headD [] = found)) := by
  have aux : ∀ (l : Store) (s : Stats),
      (l.foldl (fun s e => statsStep s e.1) s).Blobs =
        s.Blobs + l.countP (fun e => decide ((unpack e.1).headD [] = found)) := by
    intro l
    induction l with
    | nil => intro s; simp
    | cons e t ih =>
      intro s
      rw [List.foldl_cons, ih, statsStep_Blobs, List.countP_cons]
      by_cases h : (unpack e.1).headD [] = found
      · rw [if_pos h, if_pos (by simpa using h)]
        omega
      · rw [if_neg h, if_neg (by simpa using h)]
        omega
  have h := aux st ⟨0, 0, 0, 0, fun _ => 0, fun _ => 0⟩
  unfold StatsOf
  rw [h]
  simp

theorem statsOf_Links (st : Store) :
    (StatsOf st).Links =
      st.countP (fun e => decide ((unpack e.1).headD [] = parent)) := by
  have aux : ∀ (l : Store) (s : Stats),
      (l.foldl (fun s e => statsStep s e.1) s).Links =
        s.Links + l.countP (fun e => decide ((unpack e.1).headD [] = parent)) := by
    intro l
    induction l with
    | nil => intro s; simp
    | cons e t ih =>
      intro s
      rw [List.foldl_cons, ih, statsStep_Links, List.countP_cons]
      by_cases h : (unpack e.1).headD [] = parent
      · rw [if_pos h, if_pos (by simpa using h)]
        omega
      · rw [if_neg h, if_neg (by simpa using h)]
        omega
  have h := aux st ⟨0, 0, 0, 0, fun _ => 0, fun _ => 0⟩
  unfold StatsOf
  rw [h]
  simp

theorem statsOf_Missing (st : Store) :
    (StatsOf st).Missing =
      st.countP (fun e => decide ((unpack e.1).headD [] = missing)) := by
  have aux : ∀ (l : Store) (s : Stats),
      (l.foldl (fun s e => statsStep s e.1) s).Missing =
        s.Missing + l.countP (fun e => decide ((unpack e.1).headD [] = missing)) := by
    intro l
    induction l with
    | nil => intro s; simp
    | cons e t ih =>
      intro s
      rw [List.foldl_cons, ih, statsStep_Missing, List.countP_cons]
      by_cases h : (unpack e.1).headD [] = missing
      · rw [if_pos h, if_pos (by simpa using h)]
        omega
      · rw [if_neg h, if_neg (by simpa using h)]
        omega
  have h := aux st ⟨0, 0, 0, 0, fun _ => 0, fun _ => 0⟩
  unfold StatsOf
  rw [h]
  simp

theorem statsOf_CamliTypes (st : Store) (x : Bytes) :
    (StatsOf st).CamliTypes x =
      st.countP (fun e =>
        decide ((unpack e.1).headD [] = camliType ∧ (unpack e.1).getD 1 [] = x)) := by
  have aux : ∀ (l : Store) (s : Stats),
      (l.foldl (fun s e => statsStep s e.1) s).CamliTypes x =
        s.CamliTypes x + l.countP (fun e =>
          decide ((unpack e.1).headD [] = camliType ∧ (unpack e.1).getD 1 [] = x)) := by
    intro l
    induction l with
    | nil => intro s; simp
    | cons e t ih =>
      intro s
      rw [List.foldl_cons, ih, statsStep_CamliTypes, List.countP_cons]
      by_cases h : (unpack e.1).headD [] = camliType ∧ (unpack e.1).getD 1 [] = x
      · rw [if_pos h, if_pos (by simpa using h)]
        omega
      · rw [if_neg h, if_neg (by simpa using h)]
        omega
  have h := aux st ⟨0, 0, 0, 0, fun _ => 0, fun _ => 0⟩
  unfold StatsOf
  rw [h]
  simp

/-! ### Effects of whole operation sequences -/

/-- Parent edges are never deleted by `Place`. -/
theorem dbHas_Place_parent_mono {st : Store} {ref location ct x y : Bytes}
    {deps : List Bytes} (h : dbHas st (pack parent [x, y]) = true) :
    dbHas (Place st ref location ct deps) (pack parent [x, y]) = true := by
  refine dbHas_writeBatch_mono ?_ st h
  intro k' hmem heq
  rcases placeBatch_del_shape hmem with ⟨c, t, hs⟩
  rw [hs] at heq
  exact (pack2_tag_ne missing_pipeFree parent_pipeFree (by decide)) heq

/-- `PlaceMIME` only touches its own MIME key. -/
theorem dbGet_PlaceMIME_other {st : Store} {ref mime k : Bytes}
    (h : k ≠ pack mimeType [mime, ref]) :
    dbGet (PlaceMIME st ref mime) k = dbGet st k :=
  dbGet_put_ne st _ _ k h

/-- Found records over a run: exactly the refs placed so far, plus the
initial ones. -/
theorem dbHas_found_run {ops : List Op} (hops : ∀ op ∈ ops, GoodOp op)
    {r : Bytes} (hr : goodRef r = true) :
    ∀ st : Store, dbHas (run st ops) (pack found [r]) = true ↔
      (dbHas st (pack found [r]) = true ∨ r ∈ placedRefs ops) := by
  induction ops with
  | nil =>
    intro st
    simp [run_nil, placedRefs]
  | cons op rest ih =>
    intro st
    rw [run_cons, ih (fun o ho => hops o (List.mem_cons_of_mem _ ho))]
    cases op with
    | place r' l c d =>
      show (dbHas (Place st r' l c d) (pack found [r]) = true ∨ _) ↔ _
      rw [dbHas_Place_found_iff hr]
      show _ ↔ (_ ∨ r ∈ r' :: placedRefs rest)
      rw [List.mem_cons]
      tauto
    | placeMIME r' m =>
      show (dbHas (PlaceMIME st r' m) (pack found [r]) = true ∨ _) ↔ _
      unfold dbHas
      rw [dbGet_PlaceMIME_other
        (Ne.symm (pack2_ne_pack1 mimeType_pipeFree found_pipeFree (goodRef_pipeFree hr)))]
      rfl

/-- Parent edges over a run: exactly the declared edges, plus the initial
ones. -/
theorem dbHas_parent_run {ops : List Op} (hops : ∀ op ∈ ops, GoodOp op)
    {x y : Bytes} (hx : goodRef x = true) :
    ∀ st : Store, dbHas (run st ops) (pack parent [x, y]) = true ↔
      (dbHas st (pack parent [x, y]) = true ∨ (x, y) ∈ declaredEdges ops) := by
  induction ops with
  | nil =>
    intro st
    simp [run_nil, declaredEdges]
  | cons op rest ih =>
    intro st
    rw [run_cons, ih (fun o ho => hops o (List.mem_cons_of_mem _ ho))]
    cases op with
    | place r' l c d =>
      have hgood := hops _ (List.mem_cons_self _ _)
      show (dbHas (Place st r' l c d) (pack parent [x, y]) = true ∨ _) ↔ _
      rw [dbHas_Place_parent_iff hgood.1 hgood.2.2 hx]
      show _ ↔ (_ ∨ (x, y) ∈ d.map (fun dd => (dd, r')) ++ declaredEdges rest)
      rw [List.mem_append]
      have hmap : (x, y) ∈ d.map (fun dd => (dd, r')) ↔ (y = r' ∧ x ∈ d) := by
        rw [List.mem_map]
        constructor
        · rintro ⟨dd, hdd, hpair⟩
          have h1 : dd = x := congrArg Prod.fst hpair
          have h2 : r' = y := congrArg Prod.snd hpair
          exact ⟨h2.symm, h1 ▸ hdd⟩
        · rintro ⟨hy, hxd⟩
          exact ⟨x, hxd, by rw [hy]⟩
      rw [hmap]
      tauto
    | placeMIME r' m =>
      show (dbHas (PlaceMIME st r' m) (pack parent [x, y]) = true ∨ _) ↔ _
      unfold dbHas
      rw [dbGet_PlaceMIME_other
        (pack2_tag_ne parent_pipeFree mimeType_pipeFree (by decide))]
      rfl

/-! ### Characterizing `Parents` and `Missing` output -/

theorem goodRef_of_parent_key {st : Store} {x b : Bytes} (wf : DBwf st)
    (hx : goodRef x = true) (h : dbHas st (pack parent [x, b]) = true) :
    goodRef b = true := by
  rcases (dbHas_iff st _).mp h with ⟨e, he, hek⟩
  have hgk : GoodKey (pack parent [x, b]) := hek ▸ wf.2 e he
  rcases goodKey_inv hgk with hL | ⟨r, hr, hk⟩ | ⟨c, r, hc, hr, hk⟩ |
    ⟨m, r, hm, hr, hk⟩ | ⟨d, r, hd, hr, hk⟩ | ⟨d, r, hd, hr, hk⟩
  · rw [pack2_eq] at hL
    exact absurd hL (pack_ne_last parent_pipeFree _)
  · exact absurd hk
      (pack2_ne_pack1 parent_pipeFree found_pipeFree (goodRef_pipeFree hr))
  · exact absurd hk (pack2_tag_ne parent_pipeFree camliType_pipeFree (by decide))
  · exact absurd hk (pack2_tag_ne parent_pipeFree mimeType_pipeFree (by decide))
  · rcases pack2_inj parent_pipeFree parent_pipeFree (goodRef_pipeFree hx)
      (goodRef_pipeFree hd) hk with ⟨_, _, hbr⟩
    rw [hbr]
    exact hr
  · exact absurd hk (pack2_tag_ne parent_pipeFree missing_pipeFree (by decide))

theorem ParentsScan_nil {st : Store} {x : Bytes} (wf : DBwf st)
    (hx : goodRef x = true)
    (hnone : ∀ y, dbHas st (pack parent [x, y]) = false) :
    ParentsScan st x = [] := by
  unfold ParentsScan
  have hs : dbScan st (pack parent [x, start]) (pack parent [x, limit]) = [] := by
    unfold dbScan
    rw [List.filter_eq_nil_iff]
    intro e he hcond
    rcases (goodKey_parentRange hx (wf.2 e he)).mp hcond with ⟨r, hr, hek⟩
    have hhas : dbHas st (pack parent [x, r]) = true :=
      (dbHas_iff _ _).mpr ⟨e, he, hek⟩
    rw [hnone r] at hhas
    exact Bool.noConfusion hhas
  rw [hs]
  rfl

theorem pairwise_all_eq_singleton {l : Store} {K : Bytes}
    (hp : l.Pairwise (fun e f => lexLt e.1 f.1 = true))
    (hall : ∀ e ∈ l, e.1 = K) (hne : l ≠ []) : ∃ v, l = [(K, v)] := by
  cases l with
  | nil => exact absurd rfl hne
  | cons e t =>
    cases t with
    | nil =>
      refine ⟨e.2, ?_⟩
      have h1 : e.1 = K := hall e (List.mem_cons_self _ _)
      rw [← h1]
    | cons f t' =>
      exfalso
      have h1 : e.1 = K := hall e (List.mem_cons_self _ _)
      have h2 : f.1 = K := hall f (List.mem_cons_of_mem _ (List.mem_cons_self _ _))
      rcases List.pairwise_cons.mp hp with ⟨he, _⟩
      have hlt := he f (List.mem_cons_self _ _)
      rw [h1, h2, lexLt_irrefl] at hlt
      exact Bool.noConfusion hlt

theorem ParentsScan_single {st : Store} {x b : Bytes} (wf : DBwf st)
    (hx : goodRef x = true)
    (hhas : dbHas st (pack parent [x, b]) = true)
    (honly : ∀ y, dbHas st (pack parent [x, y]) = true → y = b) :
    ParentsScan st x = [b] := by
  have hb : goodRef b = true := goodRef_of_parent_key wf hx hhas
  have hall : ∀ e ∈ dbScan st (pack parent [x, start]) (pack parent [x, limit]),
      e.1 = pack parent [x, b] := by
    intro e he
    rcases List.mem_filter.mp he with ⟨hest, hcond⟩
    rcases (goodKey_parentRange hx (wf.2 e hest)).mp hcond with ⟨r, hr, hek⟩
    have : dbHas st (pack parent [x, r]) = true :=
      (dbHas_iff _ _).mpr ⟨e, hest, hek⟩
    rw [hek, honly r this]
  have hne : dbScan st (pack parent [x, start]) (pack parent [x, limit]) ≠ [] := by
    rcases (dbHas_iff st _).mp hhas with ⟨e, he, hek⟩
    have hgk : GoodKey (pack parent [x, b]) := hek ▸ wf.2 e he
    have hmem : e ∈ dbScan st (pack parent [x, start]) (pack parent [x, limit]) := by
      apply List.mem_filter.mpr
      refine ⟨he, ?_⟩
      rw [hek]
      exact (goodKey_parentRange hx hgk).mpr ⟨b, hb, rfl⟩
    intro hnil
    rw [hnil] at hmem
    exact List.not_mem_nil e hmem
  rcases pairwise_all_eq_singleton (List.Pairwise.filter _ wf.1) hall hne with ⟨v, hv⟩
  unfold ParentsScan dbScan
  rw [hv]
  show [(unpack (pack parent [x, b])).getD 2 []] = [b]
  rw [third_unpack_pack2 parent_pipeFree (goodRef_pipeFree hx) (goodRef_pipeFree hb)]

theorem countP_congr_mem {α : Type} {l : List α} {p q : α → Bool}
    (h : ∀ e ∈ l, p e = q e) : l.countP p = l.countP q := by
  induction l with
  | nil => rfl
  | cons e t ih =>
    rw [List.countP_cons, List.countP_cons, h e (List.mem_cons_self _ _),
      ih (fun f hf => h f (List.mem_cons_of_mem _ hf))]

/-- How often `Missing()` emits a given dependency ref: once per missing
record in the per-dependency range `missing|B|*`. -/
theorem count_Missing {st : Store} (wf : DBwf st) {B : Bytes}
    (hB : goodRef B = true) :
    (Missing st).count B =
      st.countP (fun e =>
        inRange (pack missing [B, start]) (pack missing [B, limit]) e.1) := by
  unfold Missing streamBlobs dbScan
  rw [List.count_eq_countP, List.countP_map, List.countP_filter]
  apply countP_congr_mem
  intro e he
  show (((unpack e.1).getD 1 [] == B) &&
      (inRange (pack missing [start]) (pack missing [limit]) e.1)) =
      (inRange (pack missing [B, start]) (pack missing [B, limit]) e.1)
  by_cases hfull : inRange (pack missing [start]) (pack missing [limit]) e.1 = true
  · rcases (goodKey_missingAll (wf.2 e he)).mp hfull with ⟨d, r, hd, hr, hek⟩
    have h1 : (unpack (pack missing [d, r])).getD 1 [] = d :=
      second_unpack_pack2 missing_pipeFree (goodRef_pipeFree hd) r
    have hfull2 : inRange (pack missing [start]) (pack missing [limit])
        (pack missing [d, r]) = true := hek ▸ hfull
    by_cases hdB : d = B
    · subst hdB
      have h2 : inRange (pack missing [d, start]) (pack missing [d, limit])
          (pack missing [d, r]) = true :=
        (goodKey_missingRange hd (GoodKey.missingK d r hd hr)).mpr ⟨r, hr, rfl⟩
      rw [hek, h1, hfull2, h2]
      simp
    · have h2 : inRange (pack missing [B, start]) (pack missing [B, limit])
          (pack missing [d, r]) = false := by
        cases hR : inRange (pack missing [B, start]) (pack missing [B, limit])
          (pack missing [d, r]) with
        | false => rfl
        | true =>
          rcases (goodKey_missingRange hB (GoodKey.missingK d r hd hr)).mp hR
            with ⟨r', _, hk'⟩
          rcases pack2_inj missing_pipeFree missing_pipeFree
            (goodRef_pipeFree hd) (goodRef_pipeFree hB) hk' with ⟨_, hdB', _⟩
          exact absurd hdB' hdB
      rw [hek, h1, hfull2, h2]
      rw [show (d == B) = false from beq_eq_false_iff_ne.mpr hdB]
      rfl
  · have hfull' : inRange (pack missing [start]) (pack missing [limit]) e.1 = false := by
      cases hF : inRange (pack missing [start]) (pack missing [limit]) e.1 with
      | false => rfl
      | true => exact absurd hF hfull
    have h2 : inRange (pack missing [B, start]) (pack missing [B, limit]) e.1 = false := by
      cases hR : inRange (pack missing [B, start]) (pack missing [B, limit]) e.1 with
      | false => rfl
      | true =>
        rcases (goodKey_missingRange hB (wf.2 e he)).mp hR with ⟨r, hr, hek⟩
        have hful : inRange (pack missing [start]) (pack missing [limit]) e.1 = true := by
          rw [hek]
          exact (goodKey_missingAll (hek ▸ wf.2 e he)).mpr ⟨B, r, hB, hr, rfl⟩
        rw [hful] at hfull'
        exact Bool.noConfusion hfull'
    rw [hfull', h2, Bool.and_false]

theorem pack2_tag_ne_pack1 {T T' a b r : Bytes} (hT : ∀ c ∈ T, c ≠ '|')
    (hT' : ∀ c ∈ T', c ≠ '|') (hne : T ≠ T') : pack T [a, b] ≠ pack T' [r] := by
  intro h
  rw [pack2_eq, pack1_eq] at h
  exact hne (pipe_split_inj hT hT' h).1

theorem pack2_samefix_inj {T a a' b : Bytes}
    (h : pack T [a, b] = pack T [a', b]) : a = a' := by
  rw [pack2_eq, pack2_eq] at h
  have h2 := List.append_cancel_left h
  have h3 := List.tail_eq_of_cons_eq h2
  exact List.append_cancel_right h3

theorem countP_key_dbPut (q : Bytes → Bool) {st : Store} {k v : Bytes}
    (hq : q k = false) :
    (dbPut st k v).countP (fun e => q e.1) = st.countP (fun e => q e.1) := by
  induction st with
  | nil => simp [dbPut, List.countP_cons, hq]
  | cons e t ih =>
    rcases Bool.eq_false_or_eq_true (lexLt k e.1) with h1 | h1
    · rw [dbPut_cons_lt v h1, List.countP_cons]
      show List.countP (fun e => q e.1) (e :: t) + (if q k = true then 1 else 0) =
        List.countP (fun e => q e.1) (e :: t)
      rw [hq]
      simp
    · by_cases h2 : k = e.1
      · subst h2
        rw [dbPut_cons_eq v rfl, List.countP_cons, List.countP_cons]
      · rw [dbPut_cons_gt v h1 h2, List.countP_cons, List.countP_cons, ih]

/-! ### The claims -/

/-- C9: `Last()` returns the location stored under the `last` key when it
exists and is readable, and returns the empty string when the key is
absent or the read fails; in either failure case the error goes to the log
component, never to the returned value, so no error is raised to the
caller. -/
theorem C9_last (st : Store) (rerr : Option String) :
    (∀ v, rerr = none → dbGet st (pack last []) = some v →
      Last st rerr = (v, none)) ∧
    (rerr = none → dbGet st (pack last []) = none →
      Last st rerr = ([], some "leveldb: not found")) ∧
    (∀ e, rerr = some e → Last st rerr = ([], some e)) := by
  refine ⟨?_, ?_, ?_⟩
  · intro v hre hget
    subst hre
    unfold Last
    rw [hget]
  · intro hre hget
    subst hre
    unfold Last
    rw [hget]
  · intro e hre
    subst hre
    rfl

theorem C9_last_w :
    Last [(pack last [], "/a".toList)] none = ("/a".toList, none) ∧
    Last [] none = ([], some "leveldb: not found") ∧
    Last [] (some "boom") = ([], some "boom") :=
  ⟨(C9_last [(pack last [], "/a".toList)] none).1 "/a".toList rfl (by decide),
   (C9_last [] none).2.1 rfl rfl,
   (C9_last [] (some "boom")).2.2 "boom" rfl⟩

/-- C8: for a ref that has no recorded parent edges,
`StreamAllParentPaths` emits exactly one path, and that path is the empty
sequence. -/
theorem C8_leaf_path (st : Store) (ref : Bytes) (h : ParentsScan st ref = []) :
    StreamAllParentPaths st (fun _ => none) ref = some (Except.ok [[]]) := by
  unfold StreamAllParentPaths
  show streamAllParentPathsAux st (fun _ => none) (st.length + 1) [] ref =
    some (Except.ok [[]])
  simp only [streamAllParentPathsAux, Parents, h]
  simp

theorem C8_leaf_path_w :
    StreamAllParentPaths [] (fun _ => none) "x".toList = some (Except.ok [[]]) :=
  C8_leaf_path [] "x".toList rfl

/-- C1: a `Place` call that returns without error applies exactly one
atomic batch, and that batch contains the found record carrying the
location, the `last` overwrite, the type record iff the type tag is
non-empty, one parent edge per declared dependency, and a missing record
exactly for those dependencies that had no found record in the committed
state at check time. -/
theorem C1_place_batch (st : Store) (ref location ct : Bytes) (deps : List Bytes) :
    Place st ref location ct deps =
      writeBatch st (placeBatch st ref location ct deps (placeScan st ref)) ∧
    BatchOp.put (pack found [ref]) location ∈
      placeBatch st ref location ct deps (placeScan st ref) ∧
    BatchOp.put (pack last []) location ∈
      placeBatch st ref location ct deps (placeScan st ref) ∧
    ((BatchOp.put (pack camliType [ct, ref]) [] ∈
      placeBatch st ref location ct deps (placeScan st ref)) ↔ ct ≠ []) ∧
    (∀ d ∈ deps, BatchOp.put (pack parent [d, ref]) [] ∈
      placeBatch st ref location ct deps (placeScan st ref)) ∧
    (∀ d ∈ deps, ((BatchOp.put (pack missing [d, ref]) [] ∈
      placeBatch st ref location ct deps (placeScan st ref)) ↔
        dbHas st (pack found [d]) = false)) := by
  refine ⟨rfl, mem_placeBatch_iff.mpr (Or.inl rfl),
    mem_placeBatch_iff.mpr (Or.inr (Or.inl rfl)), ⟨?_, ?_⟩, ?_, ?_⟩
  · intro hmem
    rcases mem_placeBatch_iff.mp hmem with h | h | ⟨hct, _⟩ | ⟨d, _, h⟩ |
      ⟨d, _, _, h⟩ | ⟨k', hk', h⟩
    · injection h with hk _
      exact absurd hk (pack2_tag_ne_pack1 camliType_pipeFree found_pipeFree (by decide))
    · injection h with hk _
      rw [pack2_eq] at hk
      exact absurd hk (pack_ne_last camliType_pipeFree _)
    · exact hct
    · injection h with hk _
      exact absurd hk (pack2_tag_ne camliType_pipeFree parent_pipeFree (by decide))
    · injection h with hk _
      exact absurd hk (pack2_tag_ne camliType_pipeFree missing_pipeFree (by decide))
    · exact BatchOp.noConfusion h
  · intro hct
    exact mem_placeBatch_iff.mpr (Or.inr (Or.inr (Or.inl ⟨hct, rfl⟩)))
  · intro d hd
    exact mem_placeBatch_iff.mpr (Or.inr (Or.inr (Or.inr (Or.inl ⟨d, hd, rfl⟩))))
  · intro d hd
    constructor
    · intro hmem
      rcases mem_placeBatch_iff.mp hmem with h | h | ⟨_, h⟩ | ⟨d', _, h⟩ |
        ⟨d', _, hnf, h⟩ | ⟨k', hk', h⟩
      · injection h with hk _
        exact absurd hk (pack2_tag_ne_pack1 missing_pipeFree found_pipeFree (by decide))
      · injection h with hk _
        rw [pack2_eq] at hk
        exact absurd hk (pack_ne_last missing_pipeFree _)
      · injection h with hk _
        exact absurd hk (pack2_tag_ne missing_pipeFree camliType_pipeFree (by decide))
      · injection h with hk _
        exact absurd hk (pack2_tag_ne missing_pipeFree parent_pipeFree (by decide))
      · injection h with hk _
        rw [← pack2_samefix_inj hk] at hnf
        exact hnf
      · exact BatchOp.noConfusion h
    · intro hnf
      exact mem_placeBatch_iff.mpr
        (Or.inr (Or.inr (Or.inr (Or.inr (Or.inl ⟨d, hd, hnf, rfl⟩)))))

theorem C1_place_batch_w :
    BatchOp.put (pack found ["r".toList]) "loc".toList ∈
      placeBatch [] "r".toList "loc".toList "note".toList ["d".toList]
        (placeScan [] "r".toList) ∧
    (BatchOp.put (pack missing ["d".toList, "r".toList]) [] ∈
      placeBatch [] "r".toList "loc".toList "note".toList ["d".toList]
        (placeScan [] "r".toList)) ∧
    (BatchOp.put (pack camliType ["note".toList, "r".toList]) [] ∈
      placeBatch [] "r".toList "loc".toList "note".toList ["d".toList]
        (placeScan [] "r".toList)) :=
  ⟨(C1_place_batch [] "r".toList "loc".toList "note".toList ["d".toList]).2.1,
   ((C1_place_batch [] "r".toList "loc".toList "note".toList
      ["d".toList]).2.2.2.2.2 "d".toList (by decide)).mpr (by decide),
   ((C1_place_batch [] "r".toList "loc".toList "note".toList
      ["d".toList]).2.2.2.1).mpr (by decide)⟩

/-- C5: scan-failure handling is asymmetric.  `Parents` returns the
iterator error to the caller, `StreamAllParentPaths` returns the error of
a faulted `Parents` call at any recursion depth and stops at the first
failing recursive call, while an iterator error during the deletion scan
inside `Place` is only logged: the call returns no error and the batch is
committed unchanged. -/
theorem C5_scan_error_asymmetry :
    (∀ (st : Store) (ref : Bytes) (e : String),
      Parents st ref (some e) = Except.error e) ∧
    (∀ (st : Store) (ferr : Bytes → Option String) (fuel : Nat)
      (path : List Bytes) (ref : Bytes) (e : String), ferr ref = some e →
      streamAllParentPathsAux st ferr (fuel + 1) path ref =
        some (Except.error e)) ∧
    (∀ (f : List Bytes → Bytes → Option (Except String (List (List Bytes))))
      (path : List Bytes) (p : Bytes) (rest : List Bytes) (e : String),
      f (path ++ [p]) p = some (Except.error e) →
      streamKids f path (p :: rest) = some (Except.error e)) ∧
    (∀ (st : Store) (ref location ct : Bytes) (deps scanned : List Bytes)
      (ierr : Option String),
      (PlaceWithScanErr st ref location ct deps scanned ierr).1 =
        writeBatch st (placeBatch st ref location ct deps scanned) ∧
      (PlaceWithScanErr st ref location ct deps scanned ierr).2.1 = ierr ∧
      (PlaceWithScanErr st ref location ct deps scanned ierr).2.2 = none) := by
  refine ⟨fun st ref e => rfl, ?_, ?_, fun st ref l c d s i => ⟨rfl, rfl, rfl⟩⟩
  · intro st ferr fuel path ref e hferr
    simp only [streamAllParentPathsAux, hferr, Parents]
  · intro f path p rest e hf
    simp only [streamKids, hf]

theorem C5_scan_error_asymmetry_w :
    streamAllParentPathsAux [] (fun _ => some "boom") 1 [] "x".toList =
      some (Except.error "boom") ∧
    streamKids (fun _ _ => some (Except.error "z")) [] ["p".toList] =
      some (Except.error "z") :=
  ⟨C5_scan_error_asymmetry.2.1 [] (fun _ => some "boom") 0 [] "x".toList "boom" rfl,
   C5_scan_error_asymmetry.2.2.1 (fun _ _ => some (Except.error "z")) []
     "p".toList [] "z" rfl⟩

/-- C7: placing the same ref twice (second call with a different, or any,
location) leaves exactly one found record for the ref, holding the
location of the most recent call, and leaves the `last` key equal to that
location; no duplicate found records accumulate. -/
theorem C7_found_idempotent (st : Store) (ref loc1 loc2 ct1 ct2 : Bytes)
    (deps1 deps2 : List Bytes) (hs : Sorted st) (href : goodRef ref = true) :
    countKey (Place (Place st ref loc1 ct1 deps1) ref loc2 ct2 deps2)
      (pack found [ref]) = 1 ∧
    dbGet (Place (Place st ref loc1 ct1 deps1) ref loc2 ct2 deps2)
      (pack found [ref]) = some loc2 ∧
    dbGet (Place (Place st ref loc1 ct1 deps1) ref loc2 ct2 deps2)
      (pack last []) = some loc2 := by
  have hget : dbGet (Place (Place st ref loc1 ct1 deps1) ref loc2 ct2 deps2)
      (pack found [ref]) = some loc2 := dbGet_Place_found_self href
  refine ⟨?_, hget, dbGet_Place_last⟩
  have hs2 : Sorted (Place (Place st ref loc1 ct1 deps1) ref loc2 ct2 deps2) :=
    (hs.writeBatch _).writeBatch _
  apply countKey_eq_one_of_has hs2
  unfold dbHas
  rw [hget]
  rfl

theorem C7_found_idempotent_w :
    countKey (Place (Place [] "r".toList "/a".toList [] [])
      "r".toList "/b".toList [] []) (pack found ["r".toList]) = 1 ∧
    dbGet (Place (Place [] "r".toList "/a".toList [] [])
      "r".toList "/b".toList [] []) (pack found ["r".toList]) =
      some "/b".toList ∧
    dbGet (Place (Place [] "r".toList "/a".toList [] [])
      "r".toList "/b".toList [] []) (pack last []) = some "/b".toList :=
  C7_found_idempotent [] "r".toList "/a".toList "/b".toList [] [] [] []
    List.Pairwise.nil (by decide)

/-- C10: `PlaceMIME` writes only the single key `mime|mime|ref` and leaves
every other keyspace unchanged: no found record is created, `last` is
untouched, no missing record is deleted, `Stats().Blobs` does not count a
MIME-only ref, and a later `Place` declaring the ref as a dependency still
writes a missing record into its batch. -/
theorem C10_placeMIME_frame (st : Store) (ref mime : Bytes) :
    (∀ k, k ≠ pack mimeType [mime, ref] →
      dbGet (PlaceMIME st ref mime) k = dbGet st k) ∧
    (∀ r, dbGet (PlaceMIME st ref mime) (pack found [r]) =
      dbGet st (pack found [r])) ∧
    dbGet (PlaceMIME st ref mime) (pack last []) = dbGet st (pack last []) ∧
    (∀ d r, dbGet (PlaceMIME st ref mime) (pack missing [d, r]) =
      dbGet st (pack missing [d, r])) ∧
    (StatsOf (PlaceMIME st ref mime)).Blobs = (StatsOf st).Blobs ∧
    (∀ r' loc ct deps, dbHas st (pack found [ref]) = false → ref ∈ deps →
      BatchOp.put (pack missing [ref, r']) [] ∈
        placeBatch (PlaceMIME st ref mime) r' loc ct deps
          (placeScan (PlaceMIME st ref mime) r')) := by
  refine ⟨fun k hk => dbGet_PlaceMIME_other hk, ?_, ?_, ?_, ?_, ?_⟩
  · intro r
    exact dbGet_PlaceMIME_other
      (Ne.symm (pack2_tag_ne_pack1 mimeType_pipeFree found_pipeFree (by decide)))
  · exact dbGet_PlaceMIME_other
      (by rw [pack2_eq]; exact Ne.symm (pack_ne_last mimeType_pipeFree _))
  · intro d r
    exact dbGet_PlaceMIME_other
      (pack2_tag_ne missing_pipeFree mimeType_pipeFree (by decide))
  · rw [statsOf_Blobs, statsOf_Blobs]
    unfold PlaceMIME
    exact countP_key_dbPut (fun kk => decide ((unpack kk).headD [] = found))
      (by
        show decide ((unpack (pack mimeType [mime, ref])).headD [] = found) = false
        rw [head_unpack_pack2 mimeType_pipeFree mime ref]
        decide)
  · intro r' loc ct deps hnf hdep
    apply mem_placeBatch_iff.mpr
    refine Or.inr (Or.inr (Or.inr (Or.inr (Or.inl ⟨ref, hdep, ?_, rfl⟩))))
    unfold dbHas
    rw [dbGet_PlaceMIME_other
      (Ne.symm (pack2_tag_ne_pack1 mimeType_pipeFree found_pipeFree (by decide)))]
    exact hnf

theorem C10_placeMIME_frame_w :
    dbGet (PlaceMIME [] "m".toList "image/jpeg".toList)
      (pack found ["m".toList]) = dbGet ([] : Store) (pack found ["m".toList]) ∧
    (StatsOf (PlaceMIME [] "m".toList "image/jpeg".toList)).Blobs =
      (StatsOf ([] : Store)).Blobs ∧
    BatchOp.put (pack missing ["m".toList, "r2".toList]) [] ∈
      placeBatch (PlaceMIME [] "m".toList "image/jpeg".toList) "r2".toList
        "/b".toList [] ["m".toList]
        (placeScan (PlaceMIME [] "m".toList "image/jpeg".toList) "r2".toList) :=
  ⟨(C10_placeMIME_frame [] "m".toList "image/jpeg".toList).2.1 "m".toList,
   (C10_placeMIME_frame [] "m".toList "image/jpeg".toList).2.2.2.2.1,
   (C10_placeMIME_frame [] "m".toList "image/jpeg".toList).2.2.2.2.2 "r2".toList
     "/b".toList [] ["m".toList] (by decide) (by decide)⟩

theorem pack2_field3_inj {T a b b' : Bytes}
    (h : pack T [a, b] = pack T [a, b']) : b = b' := by
  rw [pack2_eq, pack2_eq] at h
  have h2 := List.append_cancel_left h
  have h3 := List.tail_eq_of_cons_eq h2
  have h4 := List.append_cancel_left h3
  exact List.tail_eq_of_cons_eq h4

theorem dbHas_parent_foldl_mono (loc ct B : Bytes) :
    ∀ (L : List Bytes) (st : Store) (x y : Bytes),
      dbHas st (pack parent [x, y]) = true →
      dbHas (L.foldl (fun s r => Place s r loc ct [B]) st)
        (pack parent [x, y]) = true := by
  intro L
  induction L with
  | nil => exact fun st x y h => h
  | cons r rest ih =>
    intro st x y h
    exact ih _ x y (dbHas_Place_parent_mono h)

/-- Invariant of a run of `Place` calls that all declare the single
dependency `B` while `B` is unfound: the missing records for `B`
accumulate one per declaring ref, and parent edges accumulate
likewise. -/
theorem missing_fanin_fold {B loc ct : Bytes} (hB : goodRef B = true)
    (hct : ct = [] ∨ goodRef ct = true) :
    ∀ (L : List Bytes) (st : Store), DBwf st →
      (∀ r ∈ L, goodRef r = true) → B ∉ L →
      dbHas st (pack found [B]) = false →
      DBwf (L.foldl (fun s r => Place s r loc ct [B]) st) ∧
      dbHas (L.foldl (fun s r => Place s r loc ct [B]) st)
        (pack found [B]) = false ∧
      (∀ y, dbHas (L.foldl (fun s r => Place s r loc ct [B]) st)
          (pack missing [B, y]) = true ↔
        (dbHas st (pack missing [B, y]) = true ∨ y ∈ L)) ∧
      (∀ r ∈ L, dbHas (L.foldl (fun s r => Place s r loc ct [B]) st)
          (pack parent [B, r]) = true) := by
  intro L
  induction L with
  | nil =>
    intro st wf _ _ hnf
    refine ⟨wf, hnf, ?_, ?_⟩
    · intro y
      simp
    · intro r hr
      exact absurd hr (List.not_mem_nil r)
  | cons r rest ih =>
    intro st wf hgood hBL hnf
    have hr : goodRef r = true := hgood r (List.mem_cons_self _ _)
    have hBr : B ≠ r := fun h => hBL (h ▸ List.mem_cons_self _ _)
    have hdeps1 : ∀ d ∈ ([B] : List Bytes), goodRef d = true := by
      intro d hd
      rw [List.mem_singleton.mp hd]
      exact hB
    have wf1 : DBwf (Place st r loc ct [B]) := wf.place hr hct hdeps1
    have hnf1 : dbHas (Place st r loc ct [B]) (pack found [B]) = false := by
      unfold dbHas
      rw [dbGet_Place_found_other (goodRef_pipeFree hB) hBr]
      exact hnf
    obtain ⟨wf2, hnf2, hmiss2, hpar2⟩ := ih (Place st r loc ct [B]) wf1
      (fun x hx => hgood x (List.mem_cons_of_mem _ hx))
      (fun h => hBL (List.mem_cons_of_mem _ h)) hnf1
    refine ⟨wf2, hnf2, ?_, ?_⟩
    · intro y
      show dbHas (rest.foldl (fun s r => Place s r loc ct [B])
        (Place st r loc ct [B])) (pack missing [B, y]) = true ↔ _
      rw [hmiss2 y, dbHas_Place_missing_iff hr hdeps1 hB hBr]
      simp only [List.mem_cons, List.mem_singleton]
      constructor
      · rintro ((h | ⟨hy, _, _⟩) | h)
        · exact Or.inl h
        · exact Or.inr (Or.inl hy)
        · exact Or.inr (Or.inr h)
      · rintro (h | hy | h)
        · exact Or.inl (Or.inl h)
        · exact Or.inl (Or.inr ⟨hy, Or.inl trivial, hnf⟩)
        · exact Or.inr h
    · intro x hx
      rcases List.mem_cons.mp hx with hx | hx
      · subst hx
        show dbHas (rest.foldl (fun s r => Place s r loc ct [B])
          (Place st x loc ct [B])) (pack parent [B, x]) = true
        exact dbHas_parent_foldl_mono loc ct B rest _ B x
          (dbHas_Place_parent (List.mem_singleton.mpr rfl))
      · exact hpar2 x hx

/-- C2: any number N ≥ 1 of distinct refs each call `Place` declaring `B`
as a dependency while `B` has no found record; the index then holds N
missing records for `B` and `Missing()` emits `B` once per declaring ref.
A subsequent successful `Place` of `B` deletes all of these missing
records in that call's batch, after which `Missing()` emits `B` zero
times while every parent edge `parent|B|ref` remains. -/
theorem C2_missing_fanin (st : Store) (B loc ct locB ctB : Bytes)
    (L depsB : List Bytes) (wf : DBwf st) (hB : goodRef B = true)
    (hct : ct = [] ∨ goodRef ct = true) (hctB : ctB = [] ∨ goodRef ctB = true)
    (hL : L.Nodup) (_hLne : L ≠ []) (hgood : ∀ r ∈ L, goodRef r = true)
    (hBL : B ∉ L) (hdepsB : ∀ d ∈ depsB, goodRef d = true) (hBdB : B ∉ depsB)
    (hnf : dbHas st (pack found [B]) = false)
    (hclean : ∀ y, dbHas st (pack missing [B, y]) = false) :
    (Missing (L.foldl (fun s r => Place s r loc ct [B]) st)).count B =
      L.length ∧
    (∀ r ∈ L, BatchOp.del (pack missing [B, r]) ∈
      placeBatch (L.foldl (fun s r => Place s r loc ct [B]) st) B locB ctB
        depsB (placeScan (L.foldl (fun s r => Place s r loc ct [B]) st) B)) ∧
    (Missing (Place (L.foldl (fun s r => Place s r loc ct [B]) st) B locB ctB
      depsB)).count B = 0 ∧
    (∀ r ∈ L, dbHas (Place (L.foldl (fun s r => Place s r loc ct [B]) st) B
      locB ctB depsB) (pack parent [B, r]) = true) := by
  obtain ⟨wf1, hnf1, hmiss1, hpar1⟩ :=
    missing_fanin_fold hB hct L st wf hgood hBL hnf
  have hmiss1' : ∀ y, dbHas (L.foldl (fun s r => Place s r loc ct [B]) st)
      (pack missing [B, y]) = true ↔ y ∈ L := by
    intro y
    rw [hmiss1 y, hclean y]
    simp
  refine ⟨?_, ?_, ?_, ?_⟩
  · rw [count_Missing wf1 hB]
    have hinj : Function.Injective (fun r => pack missing [B, r]) :=
      fun r r' h => pack2_field3_inj h
    have hfin := countP_store_eq_length wf1.1
      (fun k => inRange (pack missing [B, start]) (pack missing [B, limit]) k)
      (hL.map hinj) ?_ ?_
    · rw [hfin, List.length_map]
    · intro e he hcond
      rcases (goodKey_missingRange hB (wf1.2 e he)).mp hcond with ⟨r', hr', hek⟩
      have hhas : dbHas (L.foldl (fun s r => Place s r loc ct [B]) st)
          (pack missing [B, r']) = true := (dbHas_iff _ _).mpr ⟨e, he, hek⟩
      rw [hek]
      exact List.mem_map_of_mem _ ((hmiss1' r').mp hhas)
    · intro k hk
      rcases List.mem_map.mp hk with ⟨r', hr', hkr⟩
      subst hkr
      refine ⟨(hmiss1' r').mpr hr', ?_⟩
      exact (goodKey_missingRange hB
        (GoodKey.missingK B r' hB (hgood r' hr'))).mpr ⟨r', hgood r' hr', rfl⟩
  · intro r hrL
    apply mem_placeBatch_iff.mpr
    refine Or.inr (Or.inr (Or.inr (Or.inr (Or.inr ⟨pack missing [B, r], ?_, rfl⟩))))
    exact (mem_placeScan_of_has wf1 hB ((hmiss1' r).mpr hrL)).1
  · rw [count_Missing (wf1.place hB hctB hdepsB) hB]
    apply List.countP_eq_zero.mpr
    intro e he hcond
    rcases (goodKey_missingRange hB ((wf1.place hB hctB hdepsB).2 e he)).mp hcond
      with ⟨r', hr', hek⟩
    have hhas : dbHas (Place (L.foldl (fun s r => Place s r loc ct [B]) st) B
        locB ctB depsB) (pack missing [B, r']) = true :=
      (dbHas_iff _ _).mpr ⟨e, he, hek⟩
    rw [dbHas_Place_missing_self wf1 hB hdepsB hBdB r'] at hhas
    exact Bool.noConfusion hhas
  · intro r hrL
    exact dbHas_Place_parent_mono (hpar1 r hrL)

theorem C2_missing_fanin_w :
    (Missing ((["a1".toList, "a2".toList] : List Bytes).foldl
      (fun s r => Place s r "/l".toList [] ["b".toList]) [])).count
        "b".toList = 2 ∧
    (Missing (Place ((["a1".toList, "a2".toList] : List Bytes).foldl
      (fun s r => Place s r "/l".toList [] ["b".toList]) []) "b".toList
        "/b".toList [] [])).count "b".toList = 0 ∧
    dbHas (Place ((["a1".toList, "a2".toList] : List Bytes).foldl
      (fun s r => Place s r "/l".toList [] ["b".toList]) []) "b".toList
        "/b".toList [] []) (pack parent ["b".toList, "a1".toList]) = true := by
  have h := C2_missing_fanin [] "b".toList "/l".toList [] "/b".toList []
    ["a1".toList, "a2".toList] [] DBwf_nil (by decide) (Or.inl rfl)
    (Or.inl rfl) (by decide) (by decide) (by decide) (by decide)
    (fun d hd => absurd hd (List.not_mem_nil d)) (by decide) rfl
    (fun y => rfl)
  exact ⟨h.1, h.2.2.1, h.2.2.2 "a1".toList (by decide)⟩

theorem placedRefs_good {ops : List Op} (hops : ∀ op ∈ ops, GoodOp op) :
    ∀ r ∈ placedRefs ops, goodRef r = true := by
  induction ops with
  | nil => intro r hr; exact absurd hr (List.not_mem_nil r)
  | cons op rest ih =>
    intro r hr
    cases op with
    | place r' l c d =>
      rcases List.mem_cons.mp hr with h | h
      · rw [h]
        exact (hops _ (List.mem_cons_self _ _)).1
      · exact ih (fun o ho => hops o (List.mem_cons_of_mem _ ho)) r h
    | placeMIME r' m =>
      exact ih (fun o ho => hops o (List.mem_cons_of_mem _ ho)) r hr

theorem declaredEdges_good {ops : List Op} (hops : ∀ op ∈ ops, GoodOp op) :
    ∀ p ∈ declaredEdges ops, goodRef p.1 = true ∧ goodRef p.2 = true := by
  induction ops with
  | nil => intro p hp; exact absurd hp (List.not_mem_nil p)
  | cons op rest ih =>
    intro p hp
    cases op with
    | place r' l c d =>
      rcases List.mem_append.mp hp with h | h
      · rcases List.mem_map.mp h with ⟨dd, hdd, hpd⟩
        have hgood := hops _ (List.mem_cons_self _ _)
        rw [← hpd]
        exact ⟨hgood.2.2 dd hdd, hgood.1⟩
      · exact ih (fun o ho => hops o (List.mem_cons_of_mem _ ho)) p h
    | placeMIME r' m =>
      exact ih (fun o ho => hops o (List.mem_cons_of_mem _ ho)) p hp

/-- C3: for any sequence of successful `Place` and `PlaceMIME` calls
starting from the empty index, `Stats()` returns `Blobs` equal to the
number of distinct refs ever placed, `Links` equal to the number of
dependency edges ever written (an edge is one `parent|dep|ref` record),
and `Missing` equal to the number of live missing records (exactly the
records the `Missing()` scan yields); for the concrete scenario
`Place("r1","/a","note",["r2"])` then `Place("r2","/b","note",nil)`,
`Stats()` gives `Blobs = 2`, `Links = 1`, `Missing = 0`, and
`CamliTypes["note"] = 2`. -/
theorem C3_stats (ops : List Op) (hops : ∀ op ∈ ops, GoodOp op) :
    (StatsOf (run [] ops)).Blobs = (placedRefs ops).dedup.length ∧
    (StatsOf (run [] ops)).Links = (declaredEdges ops).dedup.length ∧
    (StatsOf (run [] ops)).Missing = (Missing (run [] ops)).length ∧
    (StatsOf (Place (Place [] "r1".toList "/a".toList "note".toList
      ["r2".toList]) "r2".toList "/b".toList "note".toList [])).Blobs = 2 ∧
    (StatsOf (Place (Place [] "r1".toList "/a".toList "note".toList
      ["r2".toList]) "r2".toList "/b".toList "note".toList [])).Links = 1 ∧
    (StatsOf (Place (Place [] "r1".toList "/a".toList "note".toList
      ["r2".toList]) "r2".toList "/b".toList "note".toList [])).Missing = 0 ∧
    (StatsOf (Place (Place [] "r1".toList "/a".toList "note".toList
      ["r2".toList]) "r2".toList "/b".toList "note".toList [])).CamliTypes
      "note".toList = 2 := by
  have wf : DBwf (run [] ops) := DBwf.run hops DBwf_nil
  refine ⟨?_, ?_, ?_, by decide, by decide, by decide, by decide⟩
  · rw [statsOf_Blobs]
    have hinj : Function.Injective (fun r => pack found [r]) :=
      fun r r' h => pack1_found_inj h
    have hfin := countP_store_eq_length wf.1
      (fun k => decide ((unpack k).headD [] = found))
      ((List.nodup_dedup (placedRefs ops)).map hinj) ?_ ?_
    · rw [hfin, List.length_map]
    · intro e he hcond
      have hhead : (unpack e.1).headD [] = found := of_decide_eq_true hcond
      rcases goodKey_inv (wf.2 e he) with hL | ⟨r, hr, hk⟩ | ⟨c, r, hc, hr, hk⟩ |
        ⟨m, r, hm, hr, hk⟩ | ⟨d, r, hd, hr, hk⟩ | ⟨d, r, hd, hr, hk⟩
      · rw [hL, head_unpack_pack0 last_pipeFree] at hhead
        exact absurd hhead (by decide)
      · have hhas : dbHas (run [] ops) (pack found [r]) = true :=
          (dbHas_iff _ _).mpr ⟨e, he, hk⟩
        rcases (dbHas_found_run hops hr []).mp hhas with h0 | hmem
        · exact Bool.noConfusion h0
        · rw [hk]
          exact List.mem_map_of_mem _ (List.mem_dedup.mpr hmem)
      · rw [hk, head_unpack_pack2 camliType_pipeFree] at hhead
        exact absurd hhead (by decide)
      · rw [hk, head_unpack_pack2 mimeType_pipeFree] at hhead
        exact absurd hhead (by decide)
      · rw [hk, head_unpack_pack2 parent_pipeFree] at hhead
        exact absurd hhead (by decide)
      · rw [hk, head_unpack_pack2 missing_pipeFree] at hhead
        exact absurd hhead (by decide)
    · intro k hk
      rcases List.mem_map.mp hk with ⟨r, hr, hkr⟩
      have hrp : r ∈ placedRefs ops := List.mem_dedup.mp hr
      have hrg : goodRef r = true := placedRefs_good hops r hrp
      subst hkr
      refine ⟨(dbHas_found_run hops hrg []).mpr (Or.inr hrp), ?_⟩
      apply decide_eq_true
      exact head_unpack_pack1 found_pipeFree r
  · rw [statsOf_Links]
    have hKnodup : ((declaredEdges ops).dedup.map
        (fun p => pack parent [p.1, p.2])).Nodup := by
      apply List.Nodup.map_on ?_ (List.nodup_dedup (declaredEdges ops))
      intro p hp q hq hpq
      have hpg := declaredEdges_good hops p (List.mem_dedup.mp hp)
      have hqg := declaredEdges_good hops q (List.mem_dedup.mp hq)
      rcases pack2_inj parent_pipeFree parent_pipeFree
        (goodRef_pipeFree hpg.1) (goodRef_pipeFree hqg.1) hpq with ⟨_, h1, h2⟩
      exact Prod.ext h1 h2
    have hfin := countP_store_eq_length wf.1
      (fun k => decide ((unpack k).headD [] = parent)) hKnodup ?_ ?_
    · rw [hfin, List.length_map]
    · intro e he hcond
      have hhead : (unpack e.1).headD [] = parent := of_decide_eq_true hcond
      rcases goodKey_inv (wf.2 e he) with hL | ⟨r, hr, hk⟩ | ⟨c, r, hc, hr, hk⟩ |
        ⟨m, r, hm, hr, hk⟩ | ⟨d, r, hd, hr, hk⟩ | ⟨d, r, hd, hr, hk⟩
      · rw [hL, head_unpack_pack0 last_pipeFree] at hhead
        exact absurd hhead (by decide)
      · rw [hk, head_unpack_pack1 found_pipeFree] at hhead
        exact absurd hhead (by decide)
      · rw [hk, head_unpack_pack2 camliType_pipeFree] at hhead
        exact absurd hhead (by decide)
      · rw [hk, head_unpack_pack2 mimeType_pipeFree] at hhead
        exact absurd hhead (by decide)
      · have hhas : dbHas (run [] ops) (pack parent [d, r]) = true :=
          (dbHas_iff _ _).mpr ⟨e, he, hk⟩
        rcases (dbHas_parent_run hops hd []).mp hhas with h0 | hmem
        · exact Bool.noConfusion h0
        · rw [hk]
          exact List.mem_map_of_mem _ (List.mem_dedup.mpr hmem)
      · rw [hk, head_unpack_pack2 missing_pipeFree] at hhead
        exact absurd hhead (by decide)
    · intro k hk
      rcases List.mem_map.mp hk with ⟨p, hp, hkp⟩
      have hpe : p ∈ declaredEdges ops := List.mem_dedup.mp hp
      have hpg := declaredEdges_good hops p hpe
      subst hkp
      refine ⟨(dbHas_parent_run hops hpg.1 []).mpr (Or.inr hpe), ?_⟩
      apply decide_eq_true
      exact head_unpack_pack2 parent_pipeFree p.1 p.2
  · rw [statsOf_Missing]
    unfold Missing streamBlobs
    rw [List.length_map]
    unfold dbScan
    rw [← List.countP_eq_length_filter]
    apply countP_congr_mem
    intro e he
    by_cases hm : (unpack e.1).headD [] = missing
    · rcases goodKey_inv (wf.2 e he) with hL | ⟨r, hr, hk⟩ | ⟨c, r, hc, hr, hk⟩ |
        ⟨m', r, hm', hr, hk⟩ | ⟨d, r, hd, hr, hk⟩ | ⟨d, r, hd, hr, hk⟩
      · rw [hL, head_unpack_pack0 last_pipeFree] at hm
        exact absurd hm (by decide)
      · rw [hk, head_unpack_pack1 found_pipeFree] at hm
        exact absurd hm (by decide)
      · rw [hk, head_unpack_pack2 camliType_pipeFree] at hm
        exact absurd hm (by decide)
      · rw [hk, head_unpack_pack2 mimeType_pipeFree] at hm
        exact absurd hm (by decide)
      · rw [hk, head_unpack_pack2 parent_pipeFree] at hm
        exact absurd hm (by decide)
      · have hin : inRange (pack missing [start]) (pack missing [limit]) e.1 = true :=
          (goodKey_missingAll (wf.2 e he)).mpr ⟨d, r, hd, hr, hk⟩
        rw [hin, decide_eq_true hm]
    · have hout : inRange (pack missing [start]) (pack missing [limit]) e.1 = false := by
        cases hR : inRange (pack missing [start]) (pack missing [limit]) e.1 with
        | false => rfl
        | true =>
          rcases (goodKey_missingAll (wf.2 e he)).mp hR with ⟨d, r, hd, hr, hk⟩
          rw [hk, head_unpack_pack2 missing_pipeFree] at hm
          exact absurd rfl hm
      rw [hout, decide_eq_false hm]

theorem C3_stats_w :
    (StatsOf (run [] [Op.place "r1".toList "/a".toList "note".toList
      ["r2".toList], Op.place "r2".toList "/b".toList "note".toList []])).Blobs =
      (placedRefs [Op.place "r1".toList "/a".toList "note".toList
        ["r2".toList], Op.place "r2".toList "/b".toList "note".toList
          []]).dedup.length ∧
    (StatsOf (Place (Place [] "r1".toList "/a".toList "note".toList
      ["r2".toList]) "r2".toList "/b".toList "note".toList [])).Blobs = 2 ∧
    (StatsOf (Place (Place [] "r1".toList "/a".toList "note".toList
      ["r2".toList]) "r2".toList "/b".toList "note".toList [])).CamliTypes
      "note".toList = 2 := by
  have h := C3_stats [Op.place "r1".toList "/a".toList "note".toList
    ["r2".toList], Op.place "r2".toList "/b".toList "note".toList []] ?_
  · exact ⟨h.1, h.2.2.2.1, h.2.2.2.2.2.2⟩
  · intro op hop
    rcases List.mem_cons.mp hop with h1 | h1
    · rw [h1]
      exact ⟨by decide, Or.inr (by decide), by decide⟩
    · rcases List.mem_cons.mp h1 with h2 | h2
      · rw [h2]
        exact ⟨by decide, Or.inr (by decide), by decide⟩
      · exact absurd h2 (List.not_mem_nil op)

/-! ### Membership in placed refs and declared edges -/

theorem mem_placedRefs {ops : List Op} {r : Bytes} :
    r ∈ placedRefs ops ↔ ∃ l c d, Op.place r l c d ∈ ops := by
  induction ops with
  | nil => simp [placedRefs]
  | cons op rest ih =>
    cases op with
    | place r' l' c' d' =>
      show r ∈ r' :: placedRefs rest ↔ _
      rw [List.mem_cons, ih]
      constructor
      · rintro (heq | ⟨l, c, d, hmem⟩)
        · exact ⟨l', c', d', by rw [heq]; exact List.mem_cons_self _ _⟩
        · exact ⟨l, c, d, List.mem_cons_of_mem _ hmem⟩
      · rintro ⟨l, c, d, hmem⟩
        rcases List.mem_cons.mp hmem with heq | hmem'
        · left
          injection heq with h1 _ _ _
        · right
          exact ⟨l, c, d, hmem'⟩
    | placeMIME r' m' =>
      show r ∈ placedRefs rest ↔ _
      rw [ih]
      constructor
      · rintro ⟨l, c, d, hmem⟩
        exact ⟨l, c, d, List.mem_cons_of_mem _ hmem⟩
      · rintro ⟨l, c, d, hmem⟩
        rcases List.mem_cons.mp hmem with heq | hmem'
        · exact Op.noConfusion heq
        · exact ⟨l, c, d, hmem'⟩

theorem mem_declaredEdges {ops : List Op} {e : Bytes × Bytes} :
    e ∈ declaredEdges ops ↔
      ∃ r l c d, Op.place r l c d ∈ ops ∧ e.1 ∈ d ∧ e.2 = r := by
  induction ops with
  | nil => simp [declaredEdges]
  | cons op rest ih =>
    cases op with
    | place r' l' c' d' =>
      show e ∈ d'.map (fun dd => (dd, r')) ++ declaredEdges rest ↔ _
      rw [List.mem_append, ih]
      constructor
      · rintro (hm | ⟨r, l, c, d, hmem, h1, h2⟩)
        · rcases List.mem_map.mp hm with ⟨dd, hdd, hpair⟩
          refine ⟨r', l', c', d', List.mem_cons_self _ _, ?_, ?_⟩
          · rw [← hpair]
            exact hdd
          · rw [← hpair]
        · exact ⟨r, l, c, d, List.mem_cons_of_mem _ hmem, h1, h2⟩
      · rintro ⟨r, l, c, d, hmem, h1, h2⟩
        rcases List.mem_cons.mp hmem with heq | hmem'
        · left
          injection heq with hr _ _ hd
          subst hr
          subst hd
          exact List.mem_map.mpr ⟨e.1, h1, Prod.ext rfl h2.symm⟩
        · right
          exact ⟨r, l, c, d, hmem', h1, h2⟩
    | placeMIME r' m' =>
      show e ∈ declaredEdges rest ↔ _
      rw [ih]
      constructor
      · rintro ⟨r, l, c, d, hmem, h1, h2⟩
        exact ⟨r, l, c, d, List.mem_cons_of_mem _ hmem, h1, h2⟩
      · rintro ⟨r, l, c, d, hmem, h1, h2⟩
        rcases List.mem_cons.mp hmem with heq | hmem'
        · exact Op.noConfusion heq
        · exact ⟨r, l, c, d, hmem', h1, h2⟩

/-- C4: for a three-ref chain where `a` declares dependency `b` and `b`
declares dependency `c`, placing the three refs in any order, `Parents c`
returns exactly `[b]`, `Parents b` returns exactly `[a]`, and
`StreamAllParentPaths c` emits exactly one path, `[b, a]`, ordered from
`c` outward to its ultimate ancestor. -/
theorem C4_parent_chain (ops : List Op) (a b c la lb lc cta ctb ctc : Bytes)
    (ha : goodRef a = true) (hb : goodRef b = true) (hc : goodRef c = true)
    (hab : a ≠ b) (hbc : b ≠ c) (hac : a ≠ c)
    (hcta : cta = [] ∨ goodRef cta = true)
    (hctb : ctb = [] ∨ goodRef ctb = true)
    (hctc : ctc = [] ∨ goodRef ctc = true)
    (hperm : ops.Perm [Op.place a la cta [b], Op.place b lb ctb [c],
      Op.place c lc ctc []]) :
    Parents (run [] ops) c none = Except.ok [b] ∧
    Parents (run [] ops) b none = Except.ok [a] ∧
    StreamAllParentPaths (run [] ops) (fun _ => none) c =
      some (Except.ok [[b, a]]) := by
  have hops : ∀ op ∈ ops, GoodOp op := by
    intro op hop
    rcases List.mem_cons.mp (hperm.mem_iff.mp hop) with heq | h2
    · subst heq
      exact ⟨ha, hcta, fun x hx => by rw [List.mem_singleton.mp hx]; exact hb⟩
    · rcases List.mem_cons.mp h2 with heq | h3
      · subst heq
        exact ⟨hb, hctb, fun x hx => by rw [List.mem_singleton.mp hx]; exact hc⟩
      · rcases List.mem_cons.mp h3 with heq | h4
        · subst heq
          exact ⟨hc, hctc, fun x hx => absurd hx (List.not_mem_nil x)⟩
        · exact absurd h4 (List.not_mem_nil op)
  have wf : DBwf (run [] ops) := DBwf.run hops DBwf_nil
  have hedge : ∀ x y : Bytes,
      ((x, y) ∈ declaredEdges ops ↔ ((x = b ∧ y = a) ∨ (x = c ∧ y = b))) := by
    intro x y
    rw [mem_declaredEdges]
    constructor
    · rintro ⟨r, l, cc, d, hmem, hx, hy⟩
      rcases List.mem_cons.mp (hperm.mem_iff.mp hmem) with heq | hrest
      · injection heq with h1 _ _ h4
        subst h1
        subst h4
        exact Or.inl ⟨List.mem_singleton.mp hx, hy⟩
      · rcases List.mem_cons.mp hrest with heq | hrest2
        · injection heq with h1 _ _ h4
          subst h1
          subst h4
          exact Or.inr ⟨List.mem_singleton.mp hx, hy⟩
        · rcases List.mem_cons.mp hrest2 with heq | habs
          · injection heq with h1 _ _ h4
            subst h4
            exact absurd hx (List.not_mem_nil _)
          · exact absurd habs (List.not_mem_nil _)
    · rintro (⟨hx, hy⟩ | ⟨hx, hy⟩)
      · exact ⟨a, la, cta, [b], hperm.mem_iff.mpr (List.mem_cons_self _ _),
          by rw [hx]; exact List.mem_singleton.mpr rfl, hy⟩
      · exact ⟨b, lb, ctb, [c],
          hperm.mem_iff.mpr (List.mem_cons_of_mem _ (List.mem_cons_self _ _)),
          by rw [hx]; exact List.mem_singleton.mpr rfl, hy⟩
  have hhasC : ∀ y, dbHas (run [] ops) (pack parent [c, y]) = true ↔ y = b := by
    intro y
    rw [dbHas_parent_run hops hc [], hedge c y]
    constructor
    · rintro (habs | ⟨h1, _⟩ | ⟨_, h4⟩)
      · exact Bool.noConfusion habs
      · exact absurd h1.symm hbc
      · exact h4
    · intro hy
      exact Or.inr (Or.inr ⟨rfl, hy⟩)
  have hhasB : ∀ y, dbHas (run [] ops) (pack parent [b, y]) = true ↔ y = a := by
    intro y
    rw [dbHas_parent_run hops hb [], hedge b y]
    constructor
    · rintro (habs | ⟨_, h2⟩ | ⟨h3, _⟩)
      · exact Bool.noConfusion habs
      · exact h2
      · exact absurd h3 hbc
    · intro hy
      exact Or.inr (Or.inl ⟨rfl, hy⟩)
  have hhasA : ∀ y, dbHas (run [] ops) (pack parent [a, y]) = false := by
    intro y
    cases hA : dbHas (run [] ops) (pack parent [a, y]) with
    | false => rfl
    | true =>
      rw [dbHas_parent_run hops ha [], hedge a y] at hA
      rcases hA with habs | ⟨h1, _⟩ | ⟨h3, _⟩
      · exact Bool.noConfusion habs
      · exact absurd h1 hab
      · exact absurd h3 hac
  have hPC : ParentsScan (run [] ops) c = [b] :=
    ParentsScan_single wf hc ((hhasC b).mpr rfl) (fun y hy => (hhasC y).mp hy)
  have hPB : ParentsScan (run [] ops) b = [a] :=
    ParentsScan_single wf hb ((hhasB a).mpr rfl) (fun y hy => (hhasB y).mp hy)
  have hPA : ParentsScan (run [] ops) a = [] :=
    ParentsScan_nil wf ha hhasA
  refine ⟨?_, ?_, ?_⟩
  · show Except.ok (ParentsScan (run [] ops) c) = Except.ok [b]
    rw [hPC]
  · show Except.ok (ParentsScan (run [] ops) b) = Except.ok [a]
    rw [hPB]
  · have hkeys : ∀ r : Bytes, dbHas (run [] ops) (pack found [r]) = true →
        pack found [r] ∈ keysOf (run [] ops) := by
      intro r h
      rcases (dbHas_iff _ _).mp h with ⟨e, he, hek⟩
      exact List.mem_map.mpr ⟨e, he, hek⟩
    have hfa : dbHas (run [] ops) (pack found [a]) = true :=
      (dbHas_found_run hops ha []).mpr (Or.inr (mem_placedRefs.mpr
        ⟨la, cta, [b], hperm.mem_iff.mpr (List.mem_cons_self _ _)⟩))
    have hfb : dbHas (run [] ops) (pack found [b]) = true :=
      (dbHas_found_run hops hb []).mpr (Or.inr (mem_placedRefs.mpr
        ⟨lb, ctb, [c], hperm.mem_iff.mpr
          (List.mem_cons_of_mem _ (List.mem_cons_self _ _))⟩))
    have hfc : dbHas (run [] ops) (pack found [c]) = true :=
      (dbHas_found_run hops hc []).mpr (Or.inr (mem_placedRefs.mpr
        ⟨lc, ctc, [], hperm.mem_iff.mpr (List.mem_cons_of_mem _
          (List.mem_cons_of_mem _ (List.mem_cons_self _ _)))⟩))
    have hsub : [pack found [a], pack found [b], pack found [c]] ⊆
        keysOf (run [] ops) :=
      List.cons_subset.mpr ⟨hkeys a hfa, List.cons_subset.mpr ⟨hkeys b hfb,
        List.cons_subset.mpr ⟨hkeys c hfc, List.nil_subset _⟩⟩⟩
    have hnd : ([pack found [a], pack found [b], pack found [c]] :
        List Bytes).Nodup := by
      refine List.nodup_cons.mpr ⟨?_, List.nodup_cons.mpr ⟨?_,
        List.nodup_cons.mpr ⟨List.not_mem_nil _, List.nodup_nil⟩⟩⟩
      · intro hmem
        rcases List.mem_cons.mp hmem with h | h
        · exact hab (pack1_found_inj h)
        · rcases List.mem_cons.mp h with h' | h'
          · exact hac (pack1_found_inj h')
          · exact List.not_mem_nil _ h'
      · intro hmem
        rcases List.mem_cons.mp hmem with h | h
        · exact hbc (pack1_found_inj h)
        · exact List.not_mem_nil _ h
    have hlen3 : 3 ≤ (run [] ops).length := by
      have hsp := (List.subperm_of_subset hnd hsub).length_le
      simpa [keysOf] using hsp
    have hstep : ∀ (fuel : Nat) (path : List Bytes) (ref : Bytes),
        streamAllParentPathsAux (run [] ops) (fun _ => none) (fuel + 1)
          path ref =
        (if ParentsScan (run [] ops) ref = [] then some (Except.ok [path])
         else streamKids (fun path' p => streamAllParentPathsAux (run [] ops)
           (fun _ => none) fuel path' p) path (ParentsScan (run [] ops) ref)) :=
      fun fuel path ref => rfl
    have hauxA : ∀ (m : Nat) (path : List Bytes),
        streamAllParentPathsAux (run [] ops) (fun _ => none) (m + 1) path a =
          some (Except.ok [path]) := by
      intro m path
      rw [hstep m path a, hPA, if_pos rfl]
    have hauxB : ∀ (m : Nat) (path : List Bytes),
        streamAllParentPathsAux (run [] ops) (fun _ => none) (m + 1 + 1)
          path b = some (Except.ok [path ++ [a]]) := by
      intro m path
      rw [hstep (m + 1) path b, hPB]
      rw [if_neg (by simp)]
      simp only [streamKids, hauxA m (path ++ [a])]
      rfl
    have hauxC : ∀ (m : Nat),
        streamAllParentPathsAux (run [] ops) (fun _ => none) (m + 1 + 1 + 1)
          [] c = some (Except.ok [[b, a]]) := by
      intro m
      rw [hstep (m + 1 + 1) [] c, hPC]
      rw [if_neg (by simp)]
      simp only [streamKids, List.nil_append, hauxB m [b]]
      rfl
    show streamAllParentPathsAux (run [] ops) (fun _ => none)
      ((run [] ops).length + 1) [] c = some (Except.ok [[b, a]])
    obtain ⟨k, hk⟩ := Nat.exists_eq_add_of_le' hlen3
    rw [hk]
    exact hauxC (k + 1)

theorem C4_parent_chain_w :
    Parents (run [] [Op.place "a".toList "/a".toList [] ["b".toList],
      Op.place "b".toList "/b".toList [] ["c".toList],
      Op.place "c".toList "/c".toList [] []]) "c".toList none =
      Except.ok ["b".toList] ∧
    Parents (run [] [Op.place "a".toList "/a".toList [] ["b".toList],
      Op.place "b".toList "/b".toList [] ["c".toList],
      Op.place "c".toList "/c".toList [] []]) "b".toList none =
      Except.ok ["a".toList] ∧
    StreamAllParentPaths (run [] [Op.place "a".toList "/a".toList []
      ["b".toList], Op.place "b".toList "/b".toList [] ["c".toList],
      Op.place "c".toList "/c".toList [] []]) (fun _ => none) "c".toList =
      some (Except.ok [["b".toList, "a".toList]]) :=
  C4_parent_chain [Op.place "a".toList "/a".toList [] ["b".toList],
      Op.place "b".toList "/b".toList [] ["c".toList],
      Op.place "c".toList "/c".toList [] []]
    "a".toList "b".toList "c".toList "/a".toList "/b".toList "/c".toList
    [] [] [] (by decide) (by decide) (by decide) (by decide) (by decide)
    (by decide) (Or.inl rfl) (Or.inl rfl) (Or.inl rfl) (List.Perm.refl _)

/-! ### Termination of the parent-path recursion -/

/-- One upward step of the parent graph: `v` is emitted by the parents
scan of `u`. -/
def pstep (st : Store) (u v : Bytes) : Prop := v ∈ ParentsScan st u

theorem pstep_target_mem {st : Store} {u v : Bytes} (h : pstep st u v) :
    v ∈ st.map (fun e => (unpack e.1).getD 2 []) := by
  rcases List.mem_map.mp h with ⟨e, he, hev⟩
  exact List.mem_map.mpr ⟨e, List.mem_of_mem_filter he, hev⟩

theorem reach_finite (st : Store) (x : Bytes) :
    {y | Relation.ReflTransGen (pstep st) x y}.Finite := by
  apply Set.Finite.subset (Set.Finite.insert x
    (List.finite_toSet (st.map (fun e => (unpack e.1).getD 2 []))))
  intro y hy
  rcases Relation.ReflTransGen.cases_tail hy with heq | ⟨u, _, hu⟩
  · rw [heq]
    exact Set.mem_insert _ _
  · exact Set.mem_insert_of_mem _ (pstep_target_mem hu)

theorem reach_ssubset {st : Store} {ref x p : Bytes}
    (hacy : ∀ z, Relation.ReflTransGen (pstep st) ref z →
      ¬ Relation.TransGen (pstep st) z z)
    (hx : Relation.ReflTransGen (pstep st) ref x) (hp : pstep st x p) :
    {y | Relation.ReflTransGen (pstep st) p y} ⊂
      {y | Relation.ReflTransGen (pstep st) x y} := by
  rw [Set.ssubset_def]
  constructor
  · intro y hy
    exact Relation.ReflTransGen.trans (Relation.ReflTransGen.single hp) hy
  · intro hsub
    exact hacy x hx (Relation.TransGen.head' hp
      (hsub Relation.ReflTransGen.refl))

theorem streamKids_ok
    (f : List Bytes → Bytes → Option (Except String (List (List Bytes))))
    (parents : List Bytes)
    (h : ∀ p ∈ parents, ∀ path', ∃ ps, f path' p = some (Except.ok ps)) :
    ∀ path, ∃ ps, streamKids f path parents = some (Except.ok ps) := by
  induction parents with
  | nil =>
    intro path
    exact ⟨[], rfl⟩
  | cons p rest ih =>
    intro path
    obtain ⟨a1, ha1⟩ := h p (List.mem_cons_self _ _) (path ++ [p])
    obtain ⟨b1, hb1⟩ :=
      ih (fun q hq path' => h q (List.mem_cons_of_mem _ hq) path') path
    refine ⟨a1 ++ b1, ?_⟩
    show (match f (path ++ [p]) p with
      | none => none
      | some (Except.error e) => some (Except.error e)
      | some (Except.ok a) =>
        match streamKids f path rest with
        | none => none
        | some (Except.error e) => some (Except.error e)
        | some (Except.ok b) => some (Except.ok (a ++ b))) =
      some (Except.ok (a1 ++ b1))
    rw [ha1, hb1]

theorem aux_ok_of_acyclic {st : Store} {ref : Bytes}
    (hacy : ∀ z, Relation.ReflTransGen (pstep st) ref z →
      ¬ Relation.TransGen (pstep st) z z) :
    ∀ (fuel : Nat) (x : Bytes),
      Relation.ReflTransGen (pstep st) ref x →
      {y | Relation.ReflTransGen (pstep st) x y}.ncard ≤ fuel →
      ∀ path, ∃ ps, streamAllParentPathsAux st (fun _ => none) fuel path x =
        some (Except.ok ps) := by
  intro fuel
  induction fuel with
  | zero =>
    intro x hx hm path
    exfalso
    have hpos : 0 < {y | Relation.ReflTransGen (pstep st) x y}.ncard := by
      rw [Set.ncard_pos (reach_finite st x)]
      exact ⟨x, Relation.ReflTransGen.refl⟩
    omega
  | succ f ih =>
    intro x hx hm path
    have hstep1 : streamAllParentPathsAux st (fun _ => none) (f + 1) path x =
        (if ParentsScan st x = [] then some (Except.ok [path])
         else streamKids (fun path' p => streamAllParentPathsAux st
           (fun _ => none) f path' p) path (ParentsScan st x)) := rfl
    rw [hstep1]
    by_cases hnil : ParentsScan st x = []
    · rw [if_pos hnil]
      exact ⟨[path], rfl⟩
    · rw [if_neg hnil]
      apply streamKids_ok
      intro p hp path'
      have hpstep : pstep st x p := hp
      have hlt : {y | Relation.ReflTransGen (pstep st) p y}.ncard <
          {y | Relation.ReflTransGen (pstep st) x y}.ncard :=
        Set.ncard_lt_ncard (reach_ssubset hacy hx hpstep) (reach_finite st x)
      exact ih p (hx.tail hpstep) (by omega) path'

/-- C6: when the parent graph reachable upward from `ref` is acyclic (no
node reachable from `ref` lies on a parent cycle — the reachable region
is automatically finite, its edges coming from the finite store), the
recursive path streamer terminates under its default recursion budget and
emits a finite list of paths.  The code does no cycle detection: the
second conjunct shows that on any store whose parents scan returns the
queried ref itself, the recursion exhausts every finite budget, so the
guarantee is genuinely conditional on acyclicity. -/
theorem C6_termination_acyclic (st : Store) (ref : Bytes)
    (hacy : ∀ z, Relation.ReflTransGen (pstep st) ref z →
      ¬ Relation.TransGen (pstep st) z z) :
    (∃ ps, StreamAllParentPaths st (fun _ => none) ref =
      some (Except.ok ps)) ∧
    (∀ (st' : Store) (r : Bytes), ParentsScan st' r = [r] →
      ∀ fuel path,
        streamAllParentPathsAux st' (fun _ => none) fuel path r = none) := by
  constructor
  · have hbound : {y | Relation.ReflTransGen (pstep st) ref y}.ncard ≤
        st.length + 1 := by
      have hsub : {y | Relation.ReflTransGen (pstep st) ref y} ⊆
          insert ref {a | a ∈ st.map (fun e => (unpack e.1).getD 2 [])} := by
        intro y hy
        rcases Relation.ReflTransGen.cases_tail hy with heq | ⟨u, _, hu⟩
        · rw [heq]
          exact Set.mem_insert _ _
        · exact Set.mem_insert_of_mem _ (pstep_target_mem hu)
      have h1 := Set.ncard_le_ncard hsub (Set.Finite.insert ref
        (List.finite_toSet _))
      have h2 := Set.ncard_insert_le ref
        {a | a ∈ st.map (fun e => (unpack e.1).getD 2 [])}
      have h3 : {a | a ∈ st.map
          (fun e => (unpack e.1).getD 2 [])}.ncard ≤ st.length := by
        rw [← List.coe_toFinset, Set.ncard_coe_Finset]
        calc (st.map (fun e => (unpack e.1).getD 2 [])).toFinset.card
            ≤ (st.map (fun e => (unpack e.1).getD 2 [])).length :=
              List.toFinset_card_le _
          _ = st.length := List.length_map _ _
      omega
    exact aux_ok_of_acyclic hacy (st.length + 1) ref
      Relation.ReflTransGen.refl hbound []
  · intro st' r hscan fuel
    induction fuel with
    | zero =>
      intro path
      rfl
    | succ f ih =>
      intro path
      have hstep1 : streamAllParentPathsAux st' (fun _ => none) (f + 1)
          path r =
          (if ParentsScan st' r = [] then some (Except.ok [path])
           else streamKids (fun path' p => streamAllParentPathsAux st'
             (fun _ => none) f path' p) path (ParentsScan st' r)) := rfl
      rw [hstep1, hscan]
      rw [if_neg (by simp)]
      simp only [streamKids, ih (path ++ [r])]

theorem C6_termination_acyclic_w :
    (∃ ps, StreamAllParentPaths [] (fun _ => none) "r".toList =
      some (Except.ok ps)) ∧
    streamAllParentPathsAux [(pack parent ["r".toList, "r".toList], [])]
      (fun _ => none) 5 [] "r".toList = none := by
  have hscan : ParentsScan [(pack parent ["r".toList, "r".toList], [])]
      "r".toList = ["r".toList] := by decide
  have hnot : ∀ u v : Bytes, ¬ Relation.TransGen (pstep ([] : Store)) u v := by
    intro u v htg
    induction htg with
    | single h1 => exact absurd h1 (List.not_mem_nil _)
    | tail _ h1 _ => exact absurd h1 (List.not_mem_nil _)
  have hacy : ∀ z, Relation.ReflTransGen (pstep []) "r".toList z →
      ¬ Relation.TransGen (pstep []) z z := fun z _ => hnot z z
  exact ⟨(C6_termination_acyclic [] "r".toList hacy).1,
    (C6_termination_acyclic [] "r".toList hacy).2
      [(pack parent ["r".toList, "r".toList], [])] "r".toList hscan 5 []⟩

end Cameloff
